import Mathlib

/-!
Verification development for the advanced line-and-character diff engine
(`src/vs/editor/common/diff/advancedLinesDiffComputer.ts`).

The geometry value types (`OffsetRange`, `LineRange`, `Position`, `Range`,
`LineRangeSet`) and small array helpers live outside the repository snapshot;
they are modelled here from the specification (sections 3 and 4.1), which
reproduces their semantics.  Everything else is translated directly from the
source file; comments cite the source line numbers.

Numeric conventions: character offsets and 1-based positions are `Nat`;
line-range endpoints are `Int` (move detection shifts them by signed deltas);
similarity scores are `Rat` (the source computes them with IEEE doubles, but
at every comparison appearing in a theorem below the values are far from the
thresholds, so the rational model is faithful).
-/

namespace AdvancedDiff

/-- Modelled from the spec: a half-open `[start, endExclusive)` range of
non-negative integers (section 3). -/
structure OffsetRange where
  start : Nat
  endExclusive : Nat
deriving DecidableEq

/-- Length of an offset range. -/
def OffsetRange.length (r : OffsetRange) : Nat :=
  r.endExclusive - r.start

/-- Modelled from the spec: union of two offset ranges (outer bounds). -/
def OffsetRange.join (a b : OffsetRange) : OffsetRange :=
  ⟨min a.start b.start, max a.endExclusive b.endExclusive⟩

/-- Modelled from the spec: `OffsetRange.slice`, the sub-list of `xs` at the
index range. -/
def OffsetRange.sliceList (r : OffsetRange) (xs : List α) : List α :=
  (xs.drop r.start).take (r.endExclusive - r.start)

/-- Modelled from the spec: a half-open `[startLineNumber,
endLineNumberExclusive)` range of 1-based lines (section 3). -/
structure LineRange where
  startLineNumber : Int
  endLineNumberExclusive : Int
deriving DecidableEq

/-- Number of lines in a line range. -/
def LineRange.length (r : LineRange) : Int :=
  r.endLineNumberExclusive - r.startLineNumber

/-- A line range is empty iff its endpoints agree (section 3). -/
def LineRange.isEmpty (r : LineRange) : Prop :=
  r.startLineNumber = r.endLineNumberExclusive

instance (r : LineRange) : Decidable r.isEmpty :=
  inferInstanceAs (Decidable (r.startLineNumber = r.endLineNumberExclusive))

/-- Modelled from the spec: two line ranges overlap or touch (section 4.1). -/
def LineRange.overlapOrTouch (a b : LineRange) : Prop :=
  a.startLineNumber ≤ b.endLineNumberExclusive ∧
    b.startLineNumber ≤ a.endLineNumberExclusive

instance (a b : LineRange) : Decidable (a.overlapOrTouch b) :=
  inferInstanceAs (Decidable (a.startLineNumber ≤ b.endLineNumberExclusive ∧
    b.startLineNumber ≤ a.endLineNumberExclusive))

/-- Modelled from the spec: union of two line ranges (outer bounds). -/
def LineRange.join (a b : LineRange) : LineRange :=
  ⟨min a.startLineNumber b.startLineNumber,
    max a.endLineNumberExclusive b.endLineNumberExclusive⟩

/-- Modelled from the spec: shift a line range by `k` (section 4.1). -/
def LineRange.delta (r : LineRange) (k : Int) : LineRange :=
  ⟨r.startLineNumber + k, r.endLineNumberExclusive + k⟩

/-- Modelled from the spec: `toOffsetRange` on a `LineRange` is
`[start − 1, end − 1)` (section 4.1). -/
def LineRange.toOffsetRange (r : LineRange) : OffsetRange :=
  ⟨(r.startLineNumber - 1).toNat, (r.endLineNumberExclusive - 1).toNat⟩

/-- Modelled from the spec: a 1-based (line, column) position (section 3). -/
structure Position where
  lineNumber : Nat
  column : Nat
deriving DecidableEq

/-- Modelled from the spec: a character range between two positions
(section 3). -/
structure Range where
  startLineNumber : Nat
  startColumn : Nat
  endLineNumber : Nat
  endColumn : Nat
deriving DecidableEq

/-- Modelled from the spec: a pair of offset ranges marking a differing
region of two sequences (section 3). -/
structure SequenceDiff where
  seq1Range : OffsetRange
  seq2Range : OffsetRange
deriving DecidableEq

/-- Join of two sequence diffs, component-wise. -/
def SequenceDiff.join (a b : SequenceDiff) : SequenceDiff :=
  ⟨a.seq1Range.join b.seq1Range, a.seq2Range.join b.seq2Range⟩

/-- Modelled from the spec: a pair of character ranges (section 3). -/
structure RangeMapping where
  originalRange : Range
  modifiedRange : Range
deriving DecidableEq

/-- Modelled from the spec: a pair of line ranges (section 3). -/
structure LineRangeMapping where
  original : LineRange
  modified : LineRange
deriving DecidableEq

/-- Join of two line-range mappings, component-wise. -/
def LineRangeMapping.join (a b : LineRangeMapping) : LineRangeMapping :=
  ⟨a.original.join b.original, a.modified.join b.modified⟩

/-- Modelled from the spec: a line-range mapping together with its inner
character mappings (section 3). -/
structure DetailedLineRangeMapping where
  original : LineRange
  modified : LineRange
  innerChanges : List RangeMapping
deriving DecidableEq

/-- Modelled from the spec: a relocated block of text, carrying the detailed
mappings of its refinement (section 3). -/
structure MovedText where
  lineRangeMapping : LineRangeMapping
  changes : List DetailedLineRangeMapping
deriving DecidableEq

/-- The original line range of a moved block. -/
def MovedText.original (m : MovedText) : LineRange :=
  m.lineRangeMapping.original

/-- The modified line range of a moved block. -/
def MovedText.modified (m : MovedText) : LineRange :=
  m.lineRangeMapping.modified

/-- Modelled from the spec: result of a whole diff computation (section 3). -/
structure LinesDiff where
  changes : List DetailedLineRangeMapping
  moves : List MovedText
  hitTimeout : Bool
deriving DecidableEq

/-- Modelled from the spec: the time budget token (section 5).  Wall-clock
deadlines are outside the embedding; a token is either valid forever (the
`InfiniteTimeout` of the source) or invalid from the start. -/
structure ITimeout where
  valid : Bool
deriving DecidableEq

/-- Line lookup with the empty string as the out-of-bounds value. -/
def getLineD (lines : List String) (i : Nat) : String :=
  match lines.get? i with
  | some l => l
  | none => ""

/-- Whitespace test used by the `trim` family (space, tab, CR, LF cover all
characters appearing in this development). -/
def isWS (c : Char) : Bool :=
  c = ' ' ∨ c = '\t' ∨ c = '\n' ∨ c = '\r'

/-- Modelled from the spec: JavaScript `String.prototype.trimStart` on the
character list. -/
def trimStartL (l : List Char) : List Char :=
  l.dropWhile isWS

/-- Modelled from the spec: JavaScript `String.prototype.trimEnd` on the
character list. -/
def trimEndL (l : List Char) : List Char :=
  (l.reverse.dropWhile isWS).reverse

/-- Modelled from the spec: JavaScript `String.prototype.trim` on the
character list. -/
def trimL (l : List Char) : List Char :=
  trimEndL (trimStartL l)

/-- Concatenation of character blocks with a LF separator (JavaScript
`array.join('\n')`). -/
def joinNL (blocks : List (List Char)) : List Char :=
  List.intercalate ['\n'] blocks

/-- Last element of a list with a default, independent of the default for
nonempty lists. -/
def lastD (l : List α) (d : α) : α :=
  match l with
  | [] => d
  | [x] => x
  | _ :: x :: xs => lastD (x :: xs) d

/-- Stable insertion sort; `stay x y` states that `x` may remain in front of
`y`.  Models JavaScript `Array.prototype.sort` with an explicit comparator
(stable since ES2019). -/
def insertStable (stay : α → α → Bool) (x : α) : List α → List α
  | [] => [x]
  | y :: ys => if stay x y then x :: y :: ys else y :: insertStable stay x ys

/-- Stable sort built from `insertStable`. -/
def sortStable (stay : α → α → Bool) : List α → List α
  | [] => []
  | x :: xs => insertStable stay x (sortStable stay xs)

/-- Modelled from the spec: `groupAdjacentBy` groups maximal runs of adjacent
elements on which the predicate holds between neighbours. -/
def gab (p : α → α → Bool) : List α → List (List α)
  | [] => []
  | [x] => [[x]]
  | x :: y :: xs =>
    match gab p (y :: xs) with
    | [] => [[x]]
    | g :: gs => if p x y then (x :: g) :: gs else [x] :: g :: gs

theorem gab_cons_ne_nil (p : α → α → Bool) (a : α) (l : List α) :
    ∃ t gs, gab p (a :: l) = (a :: t) :: gs := by
  induction l generalizing a with
  | nil => exact ⟨[], [], rfl⟩
  | cons y ys ih =>
    obtain ⟨t, gs, h⟩ := ih y
    by_cases hp : p a y = true
    · exact ⟨y :: t, gs, by simp [gab, h, hp]⟩
    · exact ⟨[], (y :: t) :: gs, by simp [gab, h, hp]⟩

theorem gab_flatten (p : α → α → Bool) (l : List α) :
    (gab p l).flatten = l := by
  induction l with
  | nil => rfl
  | cons x xs ih =>
    cases xs with
    | nil => rfl
    | cons y ys =>
      obtain ⟨t, gs, h⟩ := gab_cons_ne_nil p y ys
      rw [h] at ih
      by_cases hp : p x y = true
      · simp only [gab, h, hp, if_true]
        simpa using ih
      · simp only [gab, h, hp, if_false]
        simpa using ih

theorem gab_mem_ne_nil (p : α → α → Bool) (l : List α) :
    ∀ g ∈ gab p l, g ≠ [] := by
  induction l with
  | nil => simp [gab]
  | cons x xs ih =>
    cases xs with
    | nil => simp [gab]
    | cons y ys =>
      obtain ⟨t, gs, h⟩ := gab_cons_ne_nil p y ys
      intro g hg
      rw [h] at ih
      by_cases hp : p x y = true
      · simp only [gab, h, hp, if_true] at hg
        rcases List.mem_cons.mp hg with h1 | h1
        · subst h1; simp
        · exact ih g (List.mem_cons_of_mem _ h1)
      · simp only [gab, h, hp, if_false] at hg
        rcases List.mem_cons.mp hg with h1 | h1
        · subst h1; simp
        · exact ih g h1

theorem lastD_cons (x y : α) (l : List α) (d : α) :
    lastD (x :: y :: l) d = lastD (y :: l) d := rfl

theorem lastD_mem (l : List α) (d : α) (h : l ≠ []) : lastD l d ∈ l := by
  induction l with
  | nil => simp at h
  | cons x xs ih =>
    cases xs with
    | nil => simp [lastD]
    | cons y ys => exact List.mem_cons_of_mem _ (ih (by simp))

theorem headD_mem (l : List α) (d : α) (h : l ≠ []) : l.headD d ∈ l := by
  cases l with
  | nil => simp at h
  | cons x xs => simp

theorem gab_chain_of_chain (p : α → α → Bool) (R : α → α → Prop) (l : List α)
    (h : List.Chain' R l) : ∀ g ∈ gab p l, List.Chain' R g := by
  induction l with
  | nil => simp [gab]
  | cons x xs ih =>
    cases xs with
    | nil => intro g hg; simp [gab] at hg; simp [hg]
    | cons y ys =>
      obtain ⟨t, gs, hgab⟩ := gab_cons_ne_nil p y ys
      rw [List.chain'_cons] at h
      have ihy := ih h.2
      rw [hgab] at ihy
      intro g hg
      by_cases hp : p x y = true
      · simp only [gab, hgab, hp, if_true] at hg
        rcases List.mem_cons.mp hg with h1 | h1
        · subst h1
          exact List.chain'_cons.mpr ⟨h.1, ihy _ (List.mem_cons_self _ _)⟩
        · exact ihy g (List.mem_cons_of_mem _ h1)
      · simp only [gab, hgab, hp, if_false] at hg
        rcases List.mem_cons.mp hg with h1 | h1
        · subst h1; simp
        · exact ihy g h1

theorem gab_boundary (p : α → α → Bool) (R : α → α → Prop) (d : α) (l : List α)
    (h : List.Chain' R l) :
    List.Chain' (fun g1 g2 =>
      R (lastD g1 d) (g2.headD d) ∧ p (lastD g1 d) (g2.headD d) = false)
      (gab p l) := by
  induction l with
  | nil => simp [gab]
  | cons x xs ih =>
    cases xs with
    | nil => simp [gab]
    | cons y ys =>
      obtain ⟨t, gs, hgab⟩ := gab_cons_ne_nil p y ys
      rw [List.chain'_cons] at h
      have ihy := ih h.2
      rw [hgab] at ihy
      by_cases hp : p x y = true
      · have hx : gab p (x :: y :: ys) = (x :: y :: t) :: gs := by simp [gab, hgab, hp]
        rw [hx]
        rw [List.chain'_cons'] at ihy ⊢
        refine ⟨?_, ihy.2⟩
        intro hd hhd
        have h2 := ihy.1 hd hhd
        rw [lastD_cons]
        exact h2
      · have hx : gab p (x :: y :: ys) = [x] :: (y :: t) :: gs := by simp [gab, hgab, hp]
        rw [hx, List.chain'_cons']
        refine ⟨?_, ihy⟩
        intro hd hhd
        simp only [List.head?_cons, Option.mem_def, Option.some.injEq] at hhd
        subst hhd
        exact ⟨h.1, by simpa using hp⟩

theorem chain'_headD_lastD (R : α → α → Prop) (hrefl : ∀ a, R a a)
    (htrans : ∀ a b c, R a b → R b c → R a c) (l : List α) (d : α)
    (h : List.Chain' R l) (hne : l ≠ []) : R (l.headD d) (lastD l d) := by
  induction l with
  | nil => simp at hne
  | cons x xs ih =>
    cases xs with
    | nil => exact hrefl x
    | cons y ys =>
      rw [List.chain'_cons] at h
      have := ih h.2 (by simp)
      rw [lastD_cons]
      exact htrans _ _ _ h.1 (by simpa using this)

/-! ## Preliminary line-range mappings (source lines 547-582) -/

/-- Translated from the source (lines 553-560): the trailing-newline rule.
The source reads `lineStartDelta` before it can have been changed, so the
`+ 0` terms mirror `+ lineStartDelta` at that point. -/
def lineEndDeltaOf (rangeMapping : RangeMapping) : Int :=
  if rangeMapping.modifiedRange.endColumn = 1 ∧ rangeMapping.originalRange.endColumn = 1
      ∧ (rangeMapping.originalRange.startLineNumber : Int) + 0
          ≤ (rangeMapping.originalRange.endLineNumber : Int)
      ∧ (rangeMapping.modifiedRange.startLineNumber : Int) + 0
          ≤ (rangeMapping.modifiedRange.endLineNumber : Int)
  then -1 else 0

/-- Translated from the source (lines 562-570): the leading-newline rule
(`startColumn − 1 ≥ lineLength` on both sides and still non-empty). -/
def lineStartDeltaOf (rangeMapping : RangeMapping)
    (originalLines modifiedLines : List String) : Int :=
  if ((getLineD modifiedLines (rangeMapping.modifiedRange.startLineNumber - 1)).length : Int)
          ≤ (rangeMapping.modifiedRange.startColumn : Int) - 1
      ∧ ((getLineD originalLines (rangeMapping.originalRange.startLineNumber - 1)).length : Int)
          ≤ (rangeMapping.originalRange.startColumn : Int) - 1
      ∧ (rangeMapping.originalRange.startLineNumber : Int)
          ≤ (rangeMapping.originalRange.endLineNumber : Int) + lineEndDeltaOf rangeMapping
      ∧ (rangeMapping.modifiedRange.startLineNumber : Int)
          ≤ (rangeMapping.modifiedRange.endLineNumber : Int) + lineEndDeltaOf rangeMapping
  then 1 else 0

/-- Translated from the source (lines 547-582): derive the preliminary line
ranges of one character-range mapping. -/
def getLineRangeMapping (rangeMapping : RangeMapping)
    (originalLines modifiedLines : List String) : DetailedLineRangeMapping :=
  ⟨⟨(rangeMapping.originalRange.startLineNumber : Int)
        + lineStartDeltaOf rangeMapping originalLines modifiedLines,
    (rangeMapping.originalRange.endLineNumber : Int) + 1 + lineEndDeltaOf rangeMapping⟩,
   ⟨(rangeMapping.modifiedRange.startLineNumber : Int)
        + lineStartDeltaOf rangeMapping originalLines modifiedLines,
    (rangeMapping.modifiedRange.endLineNumber : Int) + 1 + lineEndDeltaOf rangeMapping⟩,
   [rangeMapping]⟩

/-- C9: when both ranges of a `RangeMapping` end at column 1 and both ranges
are non-empty, `getLineRangeMapping` shrinks each derived
`endLineNumberExclusive` by 1 relative to the default `endLine + 1`. -/
theorem getLineRangeMapping_trailing_newline (rm : RangeMapping)
    (originalLines modifiedLines : List String)
    (hmc : rm.modifiedRange.endColumn = 1) (hoc : rm.originalRange.endColumn = 1)
    (hosc : 1 ≤ rm.originalRange.startColumn) (hmsc : 1 ≤ rm.modifiedRange.startColumn)
    (hone : rm.originalRange.startLineNumber < rm.originalRange.endLineNumber
        ∨ (rm.originalRange.startLineNumber = rm.originalRange.endLineNumber
            ∧ rm.originalRange.startColumn < rm.originalRange.endColumn))
    (hmne : rm.modifiedRange.startLineNumber < rm.modifiedRange.endLineNumber
        ∨ (rm.modifiedRange.startLineNumber = rm.modifiedRange.endLineNumber
            ∧ rm.modifiedRange.startColumn < rm.modifiedRange.endColumn)) :
    (getLineRangeMapping rm originalLines modifiedLines).original.endLineNumberExclusive
        = rm.originalRange.endLineNumber
    ∧ (getLineRangeMapping rm originalLines modifiedLines).modified.endLineNumberExclusive
        = rm.modifiedRange.endLineNumber := by
  have ho : rm.originalRange.startLineNumber < rm.originalRange.endLineNumber := by
    rcases hone with h | h
    · exact h
    · omega
  have hm : rm.modifiedRange.startLineNumber < rm.modifiedRange.endLineNumber := by
    rcases hmne with h | h
    · exact h
    · omega
  have hdelta : lineEndDeltaOf rm = -1 := by
    unfold lineEndDeltaOf
    rw [if_pos]
    exact ⟨hmc, hoc, by omega, by omega⟩
  constructor
  · show (rm.originalRange.endLineNumber : Int) + 1 + lineEndDeltaOf rm
        = rm.originalRange.endLineNumber
    rw [hdelta]; omega
  · show (rm.modifiedRange.endLineNumber : Int) + 1 + lineEndDeltaOf rm
        = rm.modifiedRange.endLineNumber
    rw [hdelta]; omega

/-- Witness for `getLineRangeMapping_trailing_newline` at a concrete
mapping. -/
theorem getLineRangeMapping_trailing_newline_witness :
    (getLineRangeMapping ⟨⟨1, 1, 2, 1⟩, ⟨1, 1, 3, 1⟩⟩ ["a", "b"] ["a", "b", "c"]).original.endLineNumberExclusive = 2
    ∧ (getLineRangeMapping ⟨⟨1, 1, 2, 1⟩, ⟨1, 1, 3, 1⟩⟩ ["a", "b"] ["a", "b", "c"]).modified.endLineNumberExclusive = 3 := by
  have h := getLineRangeMapping_trailing_newline ⟨⟨1, 1, 2, 1⟩, ⟨1, 1, 3, 1⟩⟩
    ["a", "b"] ["a", "b", "c"] (by decide) (by decide) (by decide) (by decide)
    (by decide) (by decide)
  exact h

/-! ## Fast paths of computeDiff (source lines 26-44) -/

/-- Translated from the source (lines 27-44): the two fast paths of
`computeDiff`; `none` means neither fast path fires.  Note that the end
columns of the single inner mapping are taken from the length of the FIRST
line (`originalLines[0]`, `modifiedLines[0]`) of each document, while the
end line is the LAST line of each document. -/
def computeDiffFastPath (originalLines modifiedLines : List String) : Option LinesDiff :=
  if originalLines.length ≤ 1 ∧ originalLines = modifiedLines then
    some ⟨[], [], false⟩
  else if (originalLines.length = 1 ∧ (getLineD originalLines 0).length = 0)
      ∨ (modifiedLines.length = 1 ∧ (getLineD modifiedLines 0).length = 0) then
    some ⟨[⟨⟨1, (originalLines.length : Int) + 1⟩, ⟨1, (modifiedLines.length : Int) + 1⟩,
      [⟨⟨1, 1, originalLines.length, (getLineD originalLines 0).length + 1⟩,
        ⟨1, 1, modifiedLines.length, (getLineD modifiedLines 0).length + 1⟩⟩]⟩], [], false⟩
  else none

/-- C4 (code evaluation at the failing input): with `originalLines = [""]`
and `modifiedLines = ["ab", "c"]` the empty-line fast path fires, but the
inner mapping's modified range ends at column 3 (length of the FIRST line
`"ab"` plus one) on line 2, while the position after the last character of
the last line `"c"` is column 2.  The returned end position is not even
inside the document. -/
theorem computeDiffFastPath_first_line_bug :
    (computeDiffFastPath [""] ["ab", "c"]).map
        (fun ld => ld.changes.map (fun c => (c.original, c.modified, c.innerChanges)))
      = some [(⟨1, 2⟩, ⟨1, 3⟩, [⟨⟨1, 1, 1, 1⟩, ⟨1, 1, 2, 3⟩⟩])]
    ∧ (getLineD ["ab", "c"] 1).length + 1 = 2 ∧ (3 : Nat) ≠ 2 := by decide

/-! ## Kernel selection and the line equality score (source lines 65-85) -/

/-- The value of the dynamic-programming equality score, kept symbolic: the
source returns `0.99` for `different`, `0.1` for `equalEmpty`, and
`1 + Math.log(1 + modifiedLines[offset2].length)` for
`equalNonEmpty modifiedLength`. -/
inductive LineScore where
  | different
  | equalEmpty
  | equalNonEmpty (modifiedLength : Nat)
deriving DecidableEq

/-- Which line-level diff kernel `computeDiff` runs. -/
inductive LineDiffKernel where
  | dynamicProgramming
  | myers
deriving DecidableEq

/-- Translated from the source (lines 65-85): the size-based kernel choice. -/
def selectLineKernel (originalLines modifiedLines : List String) : LineDiffKernel :=
  if originalLines.length + modifiedLines.length < 1700 then
    .dynamicProgramming
  else
    .myers

/-- Translated from the source (lines 72-78): the equality score handed to
the dynamic-programming kernel.  It compares the UNTRIMMED line texts. -/
def dpEqualityScore (originalLines modifiedLines : List String)
    (offset1 offset2 : Nat) : LineScore :=
  if getLineD originalLines offset1 = getLineD modifiedLines offset2 then
    (if (getLineD modifiedLines offset2).length = 0 then .equalEmpty
     else .equalNonEmpty (getLineD modifiedLines offset2).length)
  else .different

/-- The equality score as claim C3 words it: comparison of the TRIMMED line
texts. -/
def dpEqualityScoreTrimmedClaim (originalLines modifiedLines : List String)
    (offset1 offset2 : Nat) : LineScore :=
  if trimL (getLineD originalLines offset1).data = trimL (getLineD modifiedLines offset2).data then
    (if (getLineD modifiedLines offset2).length = 0 then .equalEmpty
     else .equalNonEmpty (getLineD modifiedLines offset2).length)
  else .different

/-- C3 (counterexample): on lines `"a "` and `"a"` the trimmed texts agree
but the untrimmed texts differ, so the source scores `0.99` (`different`)
where the claim's trimmed comparison would score `1 + ln(1 + 1)`
(`equalNonEmpty 1`). -/
theorem dpEqualityScore_trimmed_counterexample :
    dpEqualityScore ["a "] ["a"] 0 0 = .different
    ∧ dpEqualityScoreTrimmedClaim ["a "] ["a"] 0 0 = .equalNonEmpty 1
    ∧ LineScore.different ≠ LineScore.equalNonEmpty 1 := by decide

/-- C3 (amended): when `len1 + len2 < 1700`, `computeDiff` runs the
dynamic-programming line diff, otherwise Myers; the equality score is `0.99`
(`different`) when the UNTRIMMED texts of original line `i` and modified
line `j` differ, `0.1` (`equalEmpty`) when the lines are equal and the
modified line is empty, and `1 + ln(1 + length of modified line j)`
(`equalNonEmpty`) otherwise. -/
theorem selectLineKernel_and_score_spec (originalLines modifiedLines : List String)
    (offset1 offset2 : Nat) :
    (originalLines.length + modifiedLines.length < 1700 →
      selectLineKernel originalLines modifiedLines = .dynamicProgramming)
    ∧ (1700 ≤ originalLines.length + modifiedLines.length →
      selectLineKernel originalLines modifiedLines = .myers)
    ∧ (getLineD originalLines offset1 ≠ getLineD modifiedLines offset2 →
      dpEqualityScore originalLines modifiedLines offset1 offset2 = .different)
    ∧ (getLineD originalLines offset1 = getLineD modifiedLines offset2 →
      (getLineD modifiedLines offset2).length = 0 →
      dpEqualityScore originalLines modifiedLines offset1 offset2 = .equalEmpty)
    ∧ (getLineD originalLines offset1 = getLineD modifiedLines offset2 →
      (getLineD modifiedLines offset2).length ≠ 0 →
      dpEqualityScore originalLines modifiedLines offset1 offset2
        = .equalNonEmpty (getLineD modifiedLines offset2).length) := by
  refine ⟨?_, ?_, ?_, ?_, ?_⟩
  · intro h; simp [selectLineKernel, h]
  · intro h; simp [selectLineKernel, Nat.not_lt.mpr h]
  · intro h; simp [dpEqualityScore, h]
  · intro h h0; simp [dpEqualityScore, h, h0]
  · intro h h0; simp [dpEqualityScore, h, h0]

/-- Witness for `selectLineKernel_and_score_spec` at concrete inputs. -/
theorem selectLineKernel_and_score_spec_witness :
    selectLineKernel ["a "] ["ab"] = .dynamicProgramming
    ∧ dpEqualityScore ["a "] ["ab"] 0 0 = .different := by
  have h := selectLineKernel_and_score_spec ["a "] ["ab"] 0 0
  exact ⟨h.1 (by decide), h.2.2.1 (by decide)⟩

/-! ## Line-range aggregation (source lines 512-545) -/

/-- Fallback `RangeMapping`, only used as the never-inspected default of
`headD` on nonempty lists. -/
def dfltRM : RangeMapping := ⟨⟨1, 1, 1, 1⟩, ⟨1, 1, 1, 1⟩⟩

/-- Fallback `DetailedLineRangeMapping`, only used as the never-inspected
default of `headD`/`lastD` on nonempty lists. -/
def dfltDLRM : DetailedLineRangeMapping := ⟨⟨1, 1⟩, ⟨1, 1⟩, []⟩

/-- Translated from the source (lines 516-518): two preliminary mappings
belong to the same group when their original or modified line ranges overlap
or touch. -/
def shouldGroup (a1 a2 : DetailedLineRangeMapping) : Bool :=
  decide (a1.original.overlapOrTouch a2.original)
    || decide (a1.modified.overlapOrTouch a2.modified)

/-- Translated from the source (lines 520-527): collapse one group into a
single mapping (join of the first and last outer ranges, inner mappings of
all members). -/
def mkChange (g : List DetailedLineRangeMapping) : DetailedLineRangeMapping :=
  ⟨(g.headD dfltDLRM).original.join ((lastD g dfltDLRM).original),
   (g.headD dfltDLRM).modified.join ((lastD g dfltDLRM).modified),
   g.map (fun a => a.innerChanges.headD dfltRM)⟩

/-- Translated from the source (lines 512-545).  The `assertFn` calls of the
source are debug-only and do not affect the returned value; they are the
subject of `lineRangeMappingFromRangeMappings_invariant` below. -/
def lineRangeMappingFromRangeMappings (alignments : List RangeMapping)
    (originalLines modifiedLines : List String) : List DetailedLineRangeMapping :=
  (gab shouldGroup
    (alignments.map (fun a => getLineRangeMapping a originalLines modifiedLines))).map mkChange

/-- Well-formedness of both line ranges of a mapping. -/
def dlrmWF (a : DetailedLineRangeMapping) : Prop :=
  a.original.startLineNumber ≤ a.original.endLineNumberExclusive
    ∧ a.modified.startLineNumber ≤ a.modified.endLineNumberExclusive

instance (a : DetailedLineRangeMapping) : Decidable (dlrmWF a) :=
  inferInstanceAs (Decidable (a.original.startLineNumber ≤ a.original.endLineNumberExclusive
    ∧ a.modified.startLineNumber ≤ a.modified.endLineNumberExclusive))

/-- Component-wise order between preliminary mappings: successive character
mappings sit at or after the previous ones on both sides. -/
def dlrmMono (a b : DetailedLineRangeMapping) : Prop :=
  a.original.startLineNumber ≤ b.original.startLineNumber
    ∧ a.original.endLineNumberExclusive ≤ b.original.endLineNumberExclusive
    ∧ a.modified.startLineNumber ≤ b.modified.startLineNumber
    ∧ a.modified.endLineNumberExclusive ≤ b.modified.endLineNumberExclusive

instance (a b : DetailedLineRangeMapping) : Decidable (dlrmMono a b) :=
  inferInstanceAs (Decidable (a.original.startLineNumber ≤ b.original.startLineNumber
    ∧ a.original.endLineNumberExclusive ≤ b.original.endLineNumberExclusive
    ∧ a.modified.startLineNumber ≤ b.modified.startLineNumber
    ∧ a.modified.endLineNumberExclusive ≤ b.modified.endLineNumberExclusive))

/-- Equal line gaps between consecutive preliminary mappings: the text
between consecutive character mappings is unchanged, so it spans the same
number of lines on both sides. -/
def dlrmGapEq (a b : DetailedLineRangeMapping) : Prop :=
  b.original.startLineNumber - a.original.endLineNumberExclusive
    = b.modified.startLineNumber - a.modified.endLineNumberExclusive

instance (a b : DetailedLineRangeMapping) : Decidable (dlrmGapEq a b) :=
  inferInstanceAs (Decidable
    (b.original.startLineNumber - a.original.endLineNumberExclusive
      = b.modified.startLineNumber - a.modified.endLineNumberExclusive))

/-- The line-boundary invariant of the spec (section 3): adjacent changes
are strictly separated on both sides and the gaps agree. -/
def boundaryInvariant (m1 m2 : DetailedLineRangeMapping) : Prop :=
  m1.original.endLineNumberExclusive < m2.original.startLineNumber
    ∧ m1.modified.endLineNumberExclusive < m2.modified.startLineNumber
    ∧ m2.original.startLineNumber - m1.original.endLineNumberExclusive
        = m2.modified.startLineNumber - m1.modified.endLineNumberExclusive

instance (a b : DetailedLineRangeMapping) : Decidable (boundaryInvariant a b) :=
  inferInstanceAs (Decidable
    (a.original.endLineNumberExclusive < b.original.startLineNumber
      ∧ a.modified.endLineNumberExclusive < b.modified.startLineNumber
      ∧ b.original.startLineNumber - a.original.endLineNumberExclusive
          = b.modified.startLineNumber - a.modified.endLineNumberExclusive))

theorem dlrmMono_refl (a : DetailedLineRangeMapping) : dlrmMono a a :=
  ⟨le_refl _, le_refl _, le_refl _, le_refl _⟩

theorem dlrmMono_trans (a b c : DetailedLineRangeMapping)
    (h1 : dlrmMono a b) (h2 : dlrmMono b c) : dlrmMono a c :=
  ⟨le_trans h1.1 h2.1, le_trans h1.2.1 h2.2.1, le_trans h1.2.2.1 h2.2.2.1,
    le_trans h1.2.2.2 h2.2.2.2⟩

/-- C1: whenever the preliminary line mappings derived from the character
alignments are component-wise ordered, well-formed, and leave equal line
gaps between neighbours (which is what the upstream pipeline guarantees and
the source asserts at line 122), the changes built by
`lineRangeMappingFromRangeMappings` are strictly ordered on both sides and
every adjacent pair satisfies
`m2.original.start − m1.original.end = m2.modified.start − m1.modified.end`
with a gap `> 0` on each side. -/
theorem lineRangeMappingFromRangeMappings_invariant
    (alignments : List RangeMapping) (originalLines modifiedLines : List String)
    (hwf : ∀ q ∈ alignments.map
      (fun a => getLineRangeMapping a originalLines modifiedLines), dlrmWF q)
    (hmono : List.Chain' dlrmMono (alignments.map
      (fun a => getLineRangeMapping a originalLines modifiedLines)))
    (hgap : List.Chain' dlrmGapEq (alignments.map
      (fun a => getLineRangeMapping a originalLines modifiedLines))) :
    List.Chain' boundaryInvariant
      (lineRangeMappingFromRangeMappings alignments originalLines modifiedLines)
    ∧ ∀ c ∈ lineRangeMappingFromRangeMappings alignments originalLines modifiedLines,
        dlrmWF c := by
  set P := alignments.map (fun a => getLineRangeMapping a originalLines modifiedLines)
    with hPdef
  have hchainPand : List.Chain' (fun a b => dlrmMono a b ∧ dlrmGapEq a b) P := by
    rw [List.chain'_iff_get] at hmono hgap ⊢
    intro i h
    exact ⟨hmono i h, hgap i h⟩
  have hbdry := gab_boundary shouldGroup _ dfltDLRM P hchainPand
  have hne := gab_mem_ne_nil shouldGroup P
  have hchainG := gab_chain_of_chain shouldGroup dlrmMono P hmono
  have hmemP : ∀ g ∈ gab shouldGroup P, ∀ x ∈ g, x ∈ P := by
    intro g hg x hx
    rw [← gab_flatten shouldGroup P]
    exact List.mem_flatten.mpr ⟨g, hg, hx⟩
  have hhl : ∀ g ∈ gab shouldGroup P, dlrmMono (g.headD dfltDLRM) (lastD g dfltDLRM) :=
    fun g hg => chain'_headD_lastD dlrmMono dlrmMono_refl dlrmMono_trans g dfltDLRM
      (hchainG g hg) (hne g hg)
  have hshape : ∀ g ∈ gab shouldGroup P,
      (mkChange g).original.startLineNumber = (g.headD dfltDLRM).original.startLineNumber
      ∧ (mkChange g).original.endLineNumberExclusive
          = (lastD g dfltDLRM).original.endLineNumberExclusive
      ∧ (mkChange g).modified.startLineNumber = (g.headD dfltDLRM).modified.startLineNumber
      ∧ (mkChange g).modified.endLineNumberExclusive
          = (lastD g dfltDLRM).modified.endLineNumberExclusive := by
    intro g hg
    obtain ⟨h1, h2, h3, h4⟩ := hhl g hg
    refine ⟨?_, ?_, ?_, ?_⟩
    · show min _ _ = _
      omega
    · show max _ _ = _
      omega
    · show min _ _ = _
      omega
    · show max _ _ = _
      omega
  have hwfc : ∀ g ∈ gab shouldGroup P, dlrmWF (mkChange g) := by
    intro g hg
    obtain ⟨h1, h2, h3, h4⟩ := hhl g hg
    obtain ⟨s1, s2, s3, s4⟩ := hshape g hg
    have hwfh := hwf _ (hmemP g hg _ (headD_mem g dfltDLRM (hne g hg)))
    have hwfl := hwf _ (hmemP g hg _ (lastD_mem g dfltDLRM (hne g hg)))
    unfold dlrmWF at hwfh hwfl ⊢
    omega
  constructor
  · show List.Chain' boundaryInvariant ((gab shouldGroup P).map mkChange)
    rw [List.chain'_map, List.chain'_iff_get]
    intro i h
    have hb := List.chain'_iff_get.mp hbdry i h
    set g1 := (gab shouldGroup P).get ⟨i, by omega⟩ with hg1def
    set g2 := (gab shouldGroup P).get ⟨i + 1, by omega⟩ with hg2def
    have hg1 : g1 ∈ gab shouldGroup P := List.get_mem _ _ _
    have hg2 : g2 ∈ gab shouldGroup P := List.get_mem _ _ _
    obtain ⟨⟨hmonoab, hgapab⟩, hnogroup⟩ := hb
    set a := lastD g1 dfltDLRM with hadef
    set b := g2.headD dfltDLRM with hbdef
    have hwa : dlrmWF a := hwf _ (hmemP g1 hg1 _ (lastD_mem g1 dfltDLRM (hne g1 hg1)))
    have hnot : ¬ a.original.overlapOrTouch b.original
        ∧ ¬ a.modified.overlapOrTouch b.modified := by
      unfold shouldGroup at hnogroup
      rcases Bool.or_eq_false_iff.mp hnogroup with ⟨ho, hm⟩
      exact ⟨of_decide_eq_false ho, of_decide_eq_false hm⟩
    have hsep1 : a.original.endLineNumberExclusive < b.original.startLineNumber := by
      by_contra hcon
      exact hnot.1 ⟨by have := hwa.1; have := hmonoab.2.1; omega, by omega⟩
    have hsep2 : a.modified.endLineNumberExclusive < b.modified.startLineNumber := by
      by_contra hcon
      exact hnot.2 ⟨by have := hwa.2; have := hmonoab.2.2.2; omega, by omega⟩
    obtain ⟨s11, s12, s13, s14⟩ := hshape g1 hg1
    obtain ⟨s21, s22, s23, s24⟩ := hshape g2 hg2
    refine ⟨?_, ?_, ?_⟩
    · rw [s12, s21]; exact hsep1
    · rw [s14, s23]; exact hsep2
    · rw [s12, s14, s21, s23]
      exact hgapab
  · show ∀ c ∈ (gab shouldGroup P).map mkChange, dlrmWF c
    intro c hc
    obtain ⟨g, hg, rfl⟩ := List.mem_map.mp hc
    exact hwfc g hg

/-- Witness for `lineRangeMappingFromRangeMappings_invariant` on two
concrete separated alignments. -/
theorem lineRangeMappingFromRangeMappings_invariant_witness :
    List.Chain' boundaryInvariant
      (lineRangeMappingFromRangeMappings
        [⟨⟨1, 1, 1, 2⟩, ⟨1, 1, 1, 2⟩⟩, ⟨⟨3, 1, 3, 2⟩, ⟨3, 1, 3, 2⟩⟩]
        ["ab", "x", "cd"] ["ab", "x", "cd"])
    ∧ ∀ c ∈ lineRangeMappingFromRangeMappings
        [⟨⟨1, 1, 1, 2⟩, ⟨1, 1, 1, 2⟩⟩, ⟨⟨3, 1, 3, 2⟩, ⟨3, 1, 3, 2⟩⟩]
        ["ab", "x", "cd"] ["ab", "x", "cd"], dlrmWF c :=
  lineRangeMappingFromRangeMappings_invariant
    [⟨⟨1, 1, 1, 2⟩, ⟨1, 1, 1, 2⟩⟩, ⟨⟨3, 1, 3, 2⟩, ⟨3, 1, 3, 2⟩⟩]
    ["ab", "x", "cd"] ["ab", "x", "cd"]
    (by decide)
    (by
      simp only [List.map_cons, List.map_nil]
      exact List.chain'_pair.mpr (by decide))
    (by
      simp only [List.map_cons, List.map_nil]
      exact List.chain'_pair.mpr (by decide))

/-! ## Merging sequence diffs (source lines 488-510) -/

/-- Translated from the source (lines 491-500): the order in which the merge
loop consumes the two lists (the first list is picked only when its head
starts strictly earlier). -/
def mergePick : List SequenceDiff → List SequenceDiff → List SequenceDiff
  | [], ys => ys
  | x :: xs, [] => x :: xs
  | x :: xs, y :: ys =>
    if x.seq1Range.start < y.seq1Range.start then x :: mergePick xs (y :: ys)
    else y :: mergePick (x :: xs) ys
termination_by xs ys => xs.length + ys.length

/-- Translated from the source (lines 502-506): append the next diff to the
result (kept reversed here), joining when the current last diff's
`seq1Range.endExclusive` reaches the next diff's start. -/
def pushOrJoin (accRev : List SequenceDiff) (next : SequenceDiff) : List SequenceDiff :=
  match accRev with
  | [] => [next]
  | last :: rest =>
    if next.seq1Range.start ≤ last.seq1Range.endExclusive then last.join next :: rest
    else next :: last :: rest

/-- Translated from the source (lines 488-510): merge two diff lists sorted
by `seq1Range.start`, joining touching or overlapping neighbours. -/
def mergeSequenceDiffs (sequenceDiffs1 sequenceDiffs2 : List SequenceDiff) :
    List SequenceDiff :=
  ((mergePick sequenceDiffs1 sequenceDiffs2).foldl pushOrJoin []).reverse

/-- Order on sequence diffs by first-sequence start. -/
def sdLE (a b : SequenceDiff) : Prop :=
  a.seq1Range.start ≤ b.seq1Range.start

instance (a b : SequenceDiff) : Decidable (sdLE a b) :=
  inferInstanceAs (Decidable (a.seq1Range.start ≤ b.seq1Range.start))

/-- Well-formedness of the first-sequence range of a diff. -/
def sdWF (d : SequenceDiff) : Prop :=
  d.seq1Range.start ≤ d.seq1Range.endExclusive

instance (d : SequenceDiff) : Decidable (sdWF d) :=
  inferInstanceAs (Decidable (d.seq1Range.start ≤ d.seq1Range.endExclusive))

/-- Strict separation of two diffs on the first sequence. -/
def sepRel (a b : SequenceDiff) : Prop :=
  a.seq1Range.start < b.seq1Range.start
    ∧ a.seq1Range.endExclusive < b.seq1Range.start

theorem chain'_head_rel (R : α → α → Prop)
    (htrans : ∀ a b c, R a b → R b c → R a c) (x : α) (l : List α)
    (h : List.Chain' R (x :: l)) : ∀ r ∈ l, R x r := by
  induction l generalizing x with
  | nil => simp
  | cons y ys ih =>
    rw [List.chain'_cons] at h
    intro r hr
    rcases List.mem_cons.mp hr with rfl | hr
    · exact h.1
    · exact htrans _ _ _ h.1 (ih y h.2 r hr)

theorem mergePick_mem (xs ys : List SequenceDiff) :
    ∀ d ∈ mergePick xs ys, d ∈ xs ∨ d ∈ ys := by
  induction xs, ys using mergePick.induct with
  | case1 ys => intro d hd; rw [mergePick] at hd; exact Or.inr hd
  | case2 x xs => intro d hd; rw [mergePick] at hd; exact Or.inl hd
  | case3 x xs y ys hlt ih =>
    intro d hd
    rw [mergePick, if_pos hlt] at hd
    rcases List.mem_cons.mp hd with rfl | hd
    · exact Or.inl (List.mem_cons_self _ _)
    · rcases ih d hd with h | h
      · exact Or.inl (List.mem_cons_of_mem _ h)
      · exact Or.inr h
  | case4 x xs y ys hlt ih =>
    intro d hd
    rw [mergePick, if_neg hlt] at hd
    rcases List.mem_cons.mp hd with rfl | hd
    · exact Or.inr (List.mem_cons_self _ _)
    · rcases ih d hd with h | h
      · exact Or.inl h
      · exact Or.inr (List.mem_cons_of_mem _ h)

theorem mergePick_head (xs ys : List SequenceDiff) :
    ∀ z ∈ (mergePick xs ys).head?, xs.head? = some z ∨ ys.head? = some z := by
  intro z hz
  match xs, ys with
  | [], ys =>
    rw [mergePick] at hz
    exact Or.inr hz
  | x :: xs, [] =>
    rw [mergePick] at hz
    exact Or.inl hz
  | x :: xs, y :: ys =>
    rw [mergePick] at hz
    by_cases hlt : x.seq1Range.start < y.seq1Range.start
    · rw [if_pos hlt] at hz
      simp only [List.head?_cons, Option.mem_def, Option.some.injEq] at hz
      exact Or.inl (by simp [hz])
    · rw [if_neg hlt] at hz
      simp only [List.head?_cons, Option.mem_def, Option.some.injEq] at hz
      exact Or.inr (by simp [hz])

theorem mergePick_chain (xs ys : List SequenceDiff)
    (hxs : List.Chain' sdLE xs) (hys : List.Chain' sdLE ys) :
    List.Chain' sdLE (mergePick xs ys) := by
  induction xs, ys using mergePick.induct with
  | case1 ys => rw [mergePick]; exact hys
  | case2 x xs => rw [mergePick]; exact hxs
  | case3 x xs y ys hlt ih =>
    rw [mergePick, if_pos hlt]
    rw [List.chain'_cons'] at hxs
    rw [List.chain'_cons']
    refine ⟨?_, ih hxs.2 hys⟩
    intro h hh
    rcases mergePick_head xs (y :: ys) h hh with h1 | h1
    · exact hxs.1 h h1
    · simp only [List.head?_cons, Option.some.injEq] at h1
      subst h1
      exact le_of_lt hlt
  | case4 x xs y ys hlt ih =>
    rw [mergePick, if_neg hlt]
    rw [List.chain'_cons'] at hys
    rw [List.chain'_cons']
    refine ⟨?_, ih hxs hys.2⟩
    intro h hh
    rcases mergePick_head (x :: xs) ys h hh with h1 | h1
    · simp only [List.head?_cons, Option.some.injEq] at h1
      subst h1
      exact Nat.le_of_not_lt hlt
    · exact hys.1 h h1

theorem pushOrJoin_fold_invariant (picked : List SequenceDiff) :
    ∀ accRev : List SequenceDiff,
    List.Chain' sdLE picked →
    (∀ d ∈ picked, sdWF d) →
    List.Chain' (fun u v => sepRel v u) accRev →
    (∀ d ∈ accRev, sdWF d) →
    (∀ h ∈ accRev.head?, ∀ r ∈ picked, h.seq1Range.start ≤ r.seq1Range.start) →
    List.Chain' (fun u v => sepRel v u) (picked.foldl pushOrJoin accRev)
      ∧ ∀ d ∈ picked.foldl pushOrJoin accRev, sdWF d := by
  induction picked with
  | nil => intro accRev _ _ hc hw _; exact ⟨hc, hw⟩
  | cons p ps ih =>
    intro accRev hpc hpw hc hw hhead
    rw [List.foldl_cons]
    have hpwp : sdWF p := hpw p (List.mem_cons_self _ _)
    have hpwps : ∀ d ∈ ps, sdWF d := fun d hd => hpw d (List.mem_cons_of_mem _ hd)
    have hple : ∀ r ∈ ps, p.seq1Range.start ≤ r.seq1Range.start :=
      chain'_head_rel sdLE (fun a b c h1 h2 => le_trans h1 h2) p ps hpc
    have hpcps : List.Chain' sdLE ps := (List.chain'_cons'.mp hpc).2
    match haccRev : accRev with
    | [] =>
      refine ih [p] hpcps hpwps (List.chain'_singleton p) ?_ ?_
      · intro d hd
        rcases List.mem_singleton.mp hd with rfl
        exact hpwp
      · intro h hh r hr
        simp only [List.head?_cons, Option.mem_def, Option.some.injEq] at hh
        subst hh
        exact hple r hr
    | last :: rest =>
      have hlastp : last.seq1Range.start ≤ p.seq1Range.start :=
        hhead last (by simp [haccRev]) p (List.mem_cons_self _ _)
      rw [pushOrJoin]
      by_cases hjoin : p.seq1Range.start ≤ last.seq1Range.endExclusive
      · rw [if_pos hjoin]
        have hwlast : sdWF last := hw last (by simp [haccRev])
        have hjs : (last.join p).seq1Range.start = last.seq1Range.start := by
          show min _ _ = _
          omega
        have hje : (last.join p).seq1Range.endExclusive
            = max last.seq1Range.endExclusive p.seq1Range.endExclusive := rfl
        refine ih (last.join p :: rest) hpcps hpwps ?_ ?_ ?_
        · rw [List.chain'_cons'] at hc ⊢
          refine ⟨?_, hc.2⟩
          intro h hh
          have h2 := hc.1 h hh
          unfold sepRel at h2 ⊢
          rw [hjs]
          exact h2
        · intro d hd
          rcases List.mem_cons.mp hd with rfl | hd
          · unfold sdWF at hwlast hpwp ⊢
            rw [hjs, hje]
            omega
          · exact hw d (by simp [haccRev, hd])
        · intro h hh r hr
          simp only [List.head?_cons, Option.mem_def, Option.some.injEq] at hh
          subst hh
          rw [hjs]
          exact le_trans hlastp (hple r hr)
      · rw [if_neg hjoin]
        have hsepin : sepRel last p := by
          have hwlast : sdWF last := hw last (by simp [haccRev])
          unfold sdWF at hwlast
          exact ⟨by omega, by omega⟩
        refine ih (p :: last :: rest) hpcps hpwps ?_ ?_ ?_
        · rw [List.chain'_cons]
          exact ⟨hsepin, hc⟩
        · intro d hd
          rcases List.mem_cons.mp hd with rfl | hd
          · exact hpwp
          · exact hw d (by simp [haccRev, hd])
        · intro h hh r hr
          simp only [List.head?_cons, Option.mem_def, Option.some.injEq] at hh
          subst hh
          exact hple r hr

/-- C10: for input lists each sorted by `seq1Range.start` (with well-formed
first-sequence ranges), `mergeSequenceDiffs` returns a list sorted by
`seq1Range.start` in which every adjacent pair is strictly separated on the
first sequence: the earlier diff's `seq1Range.endExclusive` is strictly
below the later diff's `seq1Range.start`. -/
theorem mergeSequenceDiffs_sorted_separated (xs ys : List SequenceDiff)
    (hxs : List.Chain' sdLE xs) (hys : List.Chain' sdLE ys)
    (hwf : ∀ d ∈ xs ++ ys, sdWF d) :
    List.Chain' sepRel (mergeSequenceDiffs xs ys) := by
  have hpc := mergePick_chain xs ys hxs hys
  have hpw : ∀ d ∈ mergePick xs ys, sdWF d := by
    intro d hd
    rcases mergePick_mem xs ys d hd with h | h
    · exact hwf d (List.mem_append_left _ h)
    · exact hwf d (List.mem_append_right _ h)
  have hinv := pushOrJoin_fold_invariant (mergePick xs ys) [] hpc hpw
    (List.chain'_nil) (by simp) (by simp)
  unfold mergeSequenceDiffs
  rw [List.chain'_reverse]
  exact hinv.1

/-- Witness for `mergeSequenceDiffs_sorted_separated` on two concrete
singleton lists. -/
theorem mergeSequenceDiffs_sorted_separated_witness :
    List.Chain' sepRel (mergeSequenceDiffs [⟨⟨0, 1⟩, ⟨0, 1⟩⟩] [⟨⟨3, 4⟩, ⟨2, 3⟩⟩]) :=
  mergeSequenceDiffs_sorted_separated [⟨⟨0, 1⟩, ⟨0, 1⟩⟩] [⟨⟨3, 4⟩, ⟨2, 3⟩⟩]
    (List.chain'_singleton _) (List.chain'_singleton _) (by decide)

/-! ## LinesSliceCharSequence (source lines 621-771) -/

/-- The data computed by the `LinesSliceCharSequence` constructor. -/
structure LinesSliceCharSequence where
  lines : List String
  considerWhitespaceChanges : Bool
  elements : List Char
  firstCharOffsetByLine : List Nat
  additionalOffsetByLine : List Nat
  lineRange : OffsetRange
deriving DecidableEq

/-- Mutable state of the constructor loop. -/
structure SliceBuildState where
  elements : List Char
  firstCharOffsetByLine : List Nat
  additionalOffsetByLine : List Nat
deriving DecidableEq

/-- Translated from the source (lines 643-653): the processed text of line
`i` and its `additionalOffsetByLine` entry. -/
def procLine (lines : List String) (cwc : Bool) (trimFirst : Bool) (i : Nat) :
    List Char × Nat :=
  if trimFirst then ([], (getLineD lines i).length)
  else if cwc = false then
    (trimEndL (trimStartL (getLineD lines i).data),
      (getLineD lines i).data.length - (trimStartL (getLineD lines i).data).length)
  else ((getLineD lines i).data, 0)

/-- Translated from the source (lines 655-665): one iteration of the
constructor loop (push the processed line, then a LF and the next
`firstCharOffsetByLine` entry unless this is the document's last line). -/
def sliceStep (lines : List String) (cwc : Bool) (trimFirst : Bool)
    (st : SliceBuildState) (i : Nat) : SliceBuildState :=
  if i < lines.length - 1 then
    ⟨(st.elements ++ (procLine lines cwc trimFirst i).1) ++ ['\n'],
     st.firstCharOffsetByLine
       ++ [((st.elements ++ (procLine lines cwc trimFirst i).1) ++ ['\n']).length],
     st.additionalOffsetByLine ++ [(procLine lines cwc trimFirst i).2]⟩
  else
    ⟨st.elements ++ (procLine lines cwc trimFirst i).1,
     st.firstCharOffsetByLine,
     st.additionalOffsetByLine ++ [(procLine lines cwc trimFirst i).2]⟩

/-- Translated from the source (lines 642-666): the constructor loop;
`trimFirst` holds only on the first iteration when the edge rule fired. -/
def sliceLoop (lines : List String) (cwc : Bool) :
    List Nat → Bool → SliceBuildState → SliceBuildState
  | [], _, st => st
  | i :: rest, trimFirst, st =>
    sliceLoop lines cwc rest false (sliceStep lines cwc trimFirst st i)

/-- Assemble a slice from an already-adjusted line range. -/
def sliceFromRange (lines : List String) (cwc : Bool) (lr : OffsetRange)
    (trimFirst : Bool) : LinesSliceCharSequence :=
  ⟨lines, cwc,
   (sliceLoop lines cwc (List.range' lr.start (lr.endExclusive - lr.start)) trimFirst
      ⟨[], [0], []⟩).elements,
   (sliceLoop lines cwc (List.range' lr.start (lr.endExclusive - lr.start)) trimFirst
      ⟨[], [0], []⟩).firstCharOffsetByLine,
   (sliceLoop lines cwc (List.range' lr.start (lr.endExclusive - lr.start)) trimFirst
      ⟨[], [0], []⟩).additionalOffsetByLine ++ [0],
   lr⟩

/-- Translated from the source (lines 628-669): the constructor, including
the edge rule (lines 633-637) that extends a slice reaching the end of the
document backwards by one fully-trimmed line. -/
def buildSlice (lines : List String) (lineRange0 : OffsetRange) (cwc : Bool) :
    LinesSliceCharSequence :=
  if 0 < lineRange0.start ∧ lines.length ≤ lineRange0.endExclusive then
    sliceFromRange lines cwc ⟨lineRange0.start - 1, lineRange0.endExclusive⟩ true
  else
    sliceFromRange lines cwc lineRange0 false

theorem count_trimStartL (l : List Char) (c : Char) :
    (trimStartL l).count c ≤ l.count c :=
  List.Sublist.count_le (List.dropWhile_sublist _) c

theorem count_trimEndL (l : List Char) (c : Char) :
    (trimEndL l).count c ≤ l.count c := by
  unfold trimEndL
  rw [List.count_reverse]
  calc (l.reverse.dropWhile isWS).count c ≤ l.reverse.count c :=
        List.Sublist.count_le (List.dropWhile_sublist _) c
    _ = l.count c := List.count_reverse _ _

theorem count_procLine (lines : List String) (cwc trimFirst : Bool) (i : Nat)
    (hnolf : ∀ l ∈ lines, ('\n' : Char) ∉ l.data) :
    ((procLine lines cwc trimFirst i).1).count '\n' = 0 := by
  have hline : (getLineD lines i).data.count '\n' = 0 := by
    unfold getLineD
    cases hget : lines.get? i with
    | none => simp
    | some l =>
      simp only []
      exact List.count_eq_zero.mpr (hnolf l (List.get?_mem hget))
  unfold procLine
  by_cases htf : trimFirst = true
  · simp [htf]
  · by_cases hcwc : cwc = false
    · simp only [htf, hcwc, if_false, if_true, Bool.false_eq_true]
      have h1 := count_trimEndL (trimStartL (getLineD lines i).data) '\n'
      have h2 := count_trimStartL (getLineD lines i).data '\n'
      omega
    · simp only [htf, hcwc, if_false, Bool.false_eq_true]
      exact hline

theorem sliceLoop_count (lines : List String) (cwc : Bool)
    (hnolf : ∀ l ∈ lines, ('\n' : Char) ∉ l.data) :
    ∀ (idxs : List Nat) (trimFirst : Bool) (st : SliceBuildState),
    (sliceLoop lines cwc idxs trimFirst st).elements.count '\n'
      = st.elements.count '\n'
        + idxs.countP (fun i => decide (i < lines.length - 1)) := by
  intro idxs
  induction idxs with
  | nil => intro tf st; simp [sliceLoop]
  | cons i rest ih =>
    intro tf st
    rw [sliceLoop, ih, List.countP_cons]
    have hstep : (sliceStep lines cwc tf st i).elements.count '\n'
        = st.elements.count '\n' + (if i < lines.length - 1 then 1 else 0) := by
      unfold sliceStep
      by_cases hi : i < lines.length - 1
      · simp [hi, List.count_append, count_procLine lines cwc tf i hnolf]
      · simp [hi, List.count_append, count_procLine lines cwc tf i hnolf]
    rw [hstep]
    by_cases hi : i < lines.length - 1
    · simp [hi]; omega
    · simp [hi]

theorem countP_range'_lt (c : Nat) :
    ∀ (l a : Nat), (List.range' a l).countP (fun i => decide (i < c)) = min l (c - a) := by
  intro l
  induction l with
  | zero => intro a; simp
  | succ l ih =>
    intro a
    rw [List.range'_succ, List.countP_cons, ih (a + 1)]
    by_cases h : a < c
    · rw [if_pos (by simpa using h)]
      omega
    · rw [if_neg (by simpa using h)]
      omega

/-- C8: a slice over the whole document `[0, n)` contains exactly `n − 1`
LF characters in its element array; a slice `[ls, le)` that does not cover
the entire document contains exactly `le − ls` LF separators (the edge rule
prepending a fully-trimmed line included).  Input lines contain no LF
themselves. -/
theorem sliceElements_newline_count (lines : List String) (ls le : Nat) (cwc : Bool)
    (hnolf : ∀ l ∈ lines, ('\n' : Char) ∉ l.data)
    (hlsle : ls ≤ le) (hle : le ≤ lines.length) :
    (ls = 0 ∧ le = lines.length ∧ 1 ≤ lines.length →
      (buildSlice lines ⟨ls, le⟩ cwc).elements.count '\n' = lines.length - 1)
    ∧ (¬ (ls = 0 ∧ le = lines.length) →
      (buildSlice lines ⟨ls, le⟩ cwc).elements.count '\n' = le - ls) := by
  have hfrom : ∀ (lr : OffsetRange) (tf : Bool),
      (sliceFromRange lines cwc lr tf).elements.count '\n'
        = min (lr.endExclusive - lr.start) (lines.length - 1 - lr.start) := by
    intro lr tf
    unfold sliceFromRange
    rw [sliceLoop_count lines cwc hnolf, countP_range'_lt]
    simp
  unfold buildSlice
  by_cases hadj : 0 < ls ∧ lines.length ≤ le
  · rw [if_pos (by exact hadj)]
    constructor
    · intro h
      omega
    · intro h
      rw [hfrom]
      simp only []
      omega
  · rw [if_neg (by exact hadj)]
    constructor
    · intro h
      rw [hfrom]
      simp only []
      omega
    · intro h
      rw [hfrom]
      simp only []
      omega

/-- Witness for `sliceElements_newline_count` on a concrete document. -/
theorem sliceElements_newline_count_witness :
    (buildSlice ["ab", "c", "d"] ⟨0, 3⟩ true).elements.count '\n' = 2
    ∧ (buildSlice ["ab", "c", "d"] ⟨1, 3⟩ true).elements.count '\n' = 2 :=
  ⟨(sliceElements_newline_count ["ab", "c", "d"] 0 3 true (by decide) (by decide)
      (by decide)).1 (by decide),
   (sliceElements_newline_count ["ab", "c", "d"] 1 3 true (by decide) (by decide)
      (by decide)).2 (by decide)⟩

/-! ## translateOffset (source lines 717-725) -/

/-- Fuel-indexed body of the binary search; each step shrinks `j − i`, so
`j − i` units of fuel suffice. -/
def flimAux (arr : List Nat) (p : Nat → Bool) : Nat → Nat → Nat → Int
  | 0, i, _ => (i : Int) - 1
  | fuel + 1, i, j =>
    if i < j then
      if p (arr.getD ((i + j) / 2) 0) then flimAux arr p fuel ((i + j) / 2 + 1) j
      else flimAux arr p fuel i ((i + j) / 2)
    else (i : Int) - 1

/-- Modelled from the spec: the collaborator `findLastIdxMonotonous`
(binary search for the last index at which a monotone predicate holds,
`-1` when it holds nowhere). -/
def findLastIdxMonotonous (arr : List Nat) (p : Nat → Bool) : Int :=
  flimAux arr p arr.length 0 arr.length

/-- Translated from the source (lines 717-725). -/
def LinesSliceCharSequence.translateOffset (s : LinesSliceCharSequence)
    (offset : Nat) : Position :=
  if s.lineRange.start = s.lineRange.endExclusive then
    ⟨s.lineRange.start + 1, 1⟩
  else
    ⟨s.lineRange.start
        + (findLastIdxMonotonous s.firstCharOffsetByLine
            (fun v => decide (v ≤ offset))).toNat + 1,
     offset
        - s.firstCharOffsetByLine.getD
            (findLastIdxMonotonous s.firstCharOffsetByLine
              (fun v => decide (v ≤ offset))).toNat 0
        + s.additionalOffsetByLine.getD
            (findLastIdxMonotonous s.firstCharOffsetByLine
              (fun v => decide (v ≤ offset))).toNat 0
        + 1⟩

theorem flimAux_eq (arr : List Nat) (p : Nat → Bool) (b : Nat) :
    ∀ fuel i j, i ≤ b → b ≤ j → j - i ≤ fuel →
    (∀ idx, i ≤ idx → idx < j → (p (arr.getD idx 0) = true ↔ idx < b)) →
    flimAux arr p fuel i j = (b : Int) - 1 := by
  intro fuel
  induction fuel with
  | zero =>
    intro i j hib hbj hfuel _
    rw [flimAux]
    omega
  | succ fuel ih =>
    intro i j hib hbj hfuel hpred
    rw [flimAux]
    by_cases hij : i < j
    · rw [if_pos hij]
      have hki : i ≤ (i + j) / 2 := by omega
      have hkj : (i + j) / 2 < j := by omega
      by_cases hp : p (arr.getD ((i + j) / 2) 0) = true
      · rw [if_pos hp]
        have hkb : (i + j) / 2 < b := (hpred _ hki hkj).mp hp
        exact ih _ j (by omega) hbj (by omega)
          (fun idx h1 h2 => hpred idx (by omega) h2)
      · rw [if_neg hp]
        have hbk : b ≤ (i + j) / 2 := by
          by_contra hcon
          exact hp ((hpred _ hki hkj).mpr (by omega))
        exact ih i _ hib hbk (by omega)
          (fun idx h1 h2 => hpred idx h1 (by omega))
    · rw [if_neg hij]
      omega

theorem chain'_lt_getD (l : List Nat) (h : List.Chain' (· < ·) l) :
    ∀ i j, i ≤ j → j < l.length → l.getD i 0 ≤ l.getD j 0 := by
  induction l with
  | nil => intro i j _ hj; simp at hj
  | cons x xs ih =>
    intro i j hij hj
    cases i with
    | zero =>
      cases j with
      | zero => exact le_refl _
      | succ j' =>
        rw [List.getD_cons_zero, List.getD_cons_succ]
        have hjlen : j' < xs.length := by simpa using hj
        have hmem : xs.getD j' 0 ∈ xs := by
          rw [List.getD_eq_getElem?_getD, List.getElem?_eq_getElem hjlen]
          simp only [Option.getD_some]
          exact List.getElem_mem _
        exact le_of_lt (chain'_head_rel (· < ·)
          (fun a b c h1 h2 => lt_trans h1 h2) x xs h _ hmem)
    | succ i' =>
      cases j with
      | zero => omega
      | succ j' =>
        rw [List.getD_cons_succ, List.getD_cons_succ]
        exact ih (List.chain'_cons'.mp h).2 i' j' (by omega) (by simpa using hj)

theorem sliceLoop_fc (lines : List String) (cwc : Bool) :
    ∀ (idxs : List Nat) (trimFirst : Bool) (st : SliceBuildState),
    List.Chain' (· < ·) st.firstCharOffsetByLine →
    (∀ v ∈ st.firstCharOffsetByLine, v ≤ st.elements.length) →
    List.Chain' (· < ·) (sliceLoop lines cwc idxs trimFirst st).firstCharOffsetByLine
    ∧ ∀ v ∈ (sliceLoop lines cwc idxs trimFirst st).firstCharOffsetByLine,
        v ≤ (sliceLoop lines cwc idxs trimFirst st).elements.length := by
  intro idxs
  induction idxs with
  | nil => intro tf st hc hb; exact ⟨hc, hb⟩
  | cons i rest ih =>
    intro tf st hc hb
    rw [sliceLoop]
    refine ih false (sliceStep lines cwc tf st i) ?_ ?_
    · unfold sliceStep
      by_cases hi : i < lines.length - 1
      · rw [if_pos hi]
        simp only []
        rw [List.chain'_append]
        refine ⟨hc, List.chain'_singleton _, ?_⟩
        intro x hx y hy
        simp only [List.head?_cons, Option.mem_def, Option.some.injEq] at hy
        subst hy
        have hxmem : x ∈ st.firstCharOffsetByLine := by
          obtain ⟨hne2, rfl⟩ := List.mem_getLast?_eq_getLast hx
          exact List.getLast_mem hne2
        have := hb x hxmem
        simp only [List.length_append, List.length_cons, List.length_nil]
        omega
      · rw [if_neg hi]
        exact hc
    · unfold sliceStep
      by_cases hi : i < lines.length - 1
      · rw [if_pos hi]
        intro v hv
        simp only [] at hv ⊢
        rcases List.mem_append.mp hv with h1 | h1
        · have := hb v h1
          simp only [List.length_append, List.length_cons, List.length_nil]
          omega
        · simp only [List.mem_singleton] at h1
          subst h1
          exact le_refl _
      · rw [if_neg hi]
        intro v hv
        simp only [] at hv ⊢
        have := hb v hv
        simp only [List.length_append]
        omega

theorem buildSlice_fc_sorted (lines : List String) (lr : OffsetRange) (cwc : Bool) :
    List.Chain' (· < ·) (buildSlice lines lr cwc).firstCharOffsetByLine := by
  have hfrom : ∀ (lr' : OffsetRange) (tf : Bool),
      List.Chain' (· < ·) (sliceFromRange lines cwc lr' tf).firstCharOffsetByLine := by
    intro lr' tf
    unfold sliceFromRange
    exact (sliceLoop_fc lines cwc _ tf ⟨[], [0], []⟩
      (List.chain'_singleton _) (by simp)).1
  unfold buildSlice
  by_cases h : 0 < lr.start ∧ lines.length ≤ lr.endExclusive
  · rw [if_pos h]; exact hfrom _ _
  · rw [if_neg h]; exact hfrom _ _

/-- C7: `translateOffset` of a slice built by the constructor.  If the
(effective) line range is empty the result is `(ls + 1, 1)`; otherwise, for
any `k` that is the greatest index with `firstCharOffsetByLine[k] ≤ o`, the
result is line `ls + k + 1` and column
`o − firstCharOffsetByLine[k] + additionalOffsetByLine[k] + 1`. -/
theorem translateOffset_spec (lines : List String) (lr : OffsetRange) (cwc : Bool)
    (offset k : Nat)
    (hbound : offset ≤ (buildSlice lines lr cwc).elements.length) :
    ((buildSlice lines lr cwc).lineRange.start
        = (buildSlice lines lr cwc).lineRange.endExclusive →
      (buildSlice lines lr cwc).translateOffset offset
        = ⟨(buildSlice lines lr cwc).lineRange.start + 1, 1⟩)
    ∧ ((buildSlice lines lr cwc).lineRange.start
        ≠ (buildSlice lines lr cwc).lineRange.endExclusive →
      k < (buildSlice lines lr cwc).firstCharOffsetByLine.length →
      (buildSlice lines lr cwc).firstCharOffsetByLine.getD k 0 ≤ offset →
      (∀ j, k < j → j < (buildSlice lines lr cwc).firstCharOffsetByLine.length →
        offset < (buildSlice lines lr cwc).firstCharOffsetByLine.getD j 0) →
      (buildSlice lines lr cwc).translateOffset offset
        = ⟨(buildSlice lines lr cwc).lineRange.start + k + 1,
           offset - (buildSlice lines lr cwc).firstCharOffsetByLine.getD k 0
             + (buildSlice lines lr cwc).additionalOffsetByLine.getD k 0 + 1⟩) := by
  constructor
  · intro hempty
    unfold LinesSliceCharSequence.translateOffset
    rw [if_pos hempty]
  · intro hne hk hle hgt
    have hsorted := buildSlice_fc_sorted lines lr cwc
    have hfl : findLastIdxMonotonous (buildSlice lines lr cwc).firstCharOffsetByLine
        (fun v => decide (v ≤ offset)) = (k : Int) + 1 - 1 := by
      unfold findLastIdxMonotonous
      have := flimAux_eq (buildSlice lines lr cwc).firstCharOffsetByLine
        (fun v => decide (v ≤ offset)) (k + 1)
        (buildSlice lines lr cwc).firstCharOffsetByLine.length 0
        (buildSlice lines lr cwc).firstCharOffsetByLine.length
        (by omega) (by omega) (by omega) ?_
      · rw [this]; push_cast; ring
      · intro idx _ hidx
        simp only [decide_eq_true_eq]
        constructor
        · intro hple
          by_contra hcon
          have := hgt idx (by omega) hidx
          omega
        · intro hblt
          exact le_trans (chain'_lt_getD _ hsorted idx k (by omega) hk) hle
    unfold LinesSliceCharSequence.translateOffset
    rw [if_neg hne, hfl]
    have : ((k : Int) + 1 - 1).toNat = k := by omega
    rw [this]

/-- Witness for `translateOffset_spec` on a concrete slice: offset 1 inside
the slice of `["ab", "c"]` over `[0, 2)` is position `(1, 2)`. -/
theorem translateOffset_spec_witness :
    (buildSlice ["ab", "c"] ⟨0, 2⟩ true).translateOffset 1 = ⟨1, 2⟩ := by
  have h := (translateOffset_spec ["ab", "c"] ⟨0, 2⟩ true 1 0 (by decide)).2
    (by decide) (by decide) (by decide)
    (by
      intro j hj hjl
      have hlen : (buildSlice ["ab", "c"] ⟨0, 2⟩ true).firstCharOffsetByLine.length = 2 := by
        decide
      rw [hlen] at hjl
      have hj1 : j = 1 := by omega
      subst hj1
      decide)
  exact h.trans (by decide)

/-! ## Line-range sets (modelled from the spec, section 4.1) -/

/-- Modelled from the spec: the pointwise intersection of two line ranges,
`none` when empty. -/
def LineRange.intersect (a b : LineRange) : Option LineRange :=
  if max a.startLineNumber b.startLineNumber
      < min a.endLineNumberExclusive b.endLineNumberExclusive then
    some ⟨max a.startLineNumber b.startLineNumber,
      min a.endLineNumberExclusive b.endLineNumberExclusive⟩
  else none

/-- Modelled from the spec: a set of line ranges kept as a sorted list of
disjoint ranges (section 4.1). -/
structure LineRangeSet where
  ranges : List LineRange
deriving DecidableEq

/-- Modelled from the spec: union with coalescing of touching ranges. -/
def LineRangeSet.addRange (s : LineRangeSet) (r : LineRange) : LineRangeSet :=
  ⟨sortStable (fun a b => decide (a.startLineNumber ≤ b.startLineNumber))
    (((s.ranges.filter (fun q => decide (q.overlapOrTouch r))).foldl LineRange.join r)
      :: s.ranges.filter (fun q => ! decide (q.overlapOrTouch r)))⟩

/-- Modelled from the spec: the part of `r` not yet in the set. -/
def LineRangeSet.subtractFrom (s : LineRangeSet) (r : LineRange) : LineRangeSet :=
  let p := s.ranges.foldl
    (fun (acc : List LineRange × Int) q =>
      if q.endLineNumberExclusive ≤ acc.2 ∨ r.endLineNumberExclusive ≤ q.startLineNumber then
        acc
      else
        ((if acc.2 < q.startLineNumber then
            acc.1 ++ [⟨acc.2, min q.startLineNumber r.endLineNumberExclusive⟩]
          else acc.1),
         max acc.2 q.endLineNumberExclusive))
    ([], r.startLineNumber)
  ⟨if p.2 < r.endLineNumberExclusive then p.1 ++ [⟨p.2, r.endLineNumberExclusive⟩] else p.1⟩

/-- Modelled from the spec: shift every range of the set by `k`. -/
def LineRangeSet.getWithDelta (s : LineRangeSet) (k : Int) : LineRangeSet :=
  ⟨s.ranges.map (fun r => r.delta k)⟩

/-- Modelled from the spec: the pointwise intersection of two sets. -/
def LineRangeSet.getIntersection (s other : LineRangeSet) : LineRangeSet :=
  ⟨s.ranges.foldl (fun acc a => acc ++ other.ranges.filterMap (fun b => a.intersect b)) []⟩

/-! ## Line-range fragments and similarity (source lines 829-871) -/

/-- Exact rational value `num / den`, kept unreduced so that kernel
evaluation works; in every reachable use `den` is a positive total character
count.  `SimValue.lt` cross-multiplies, which is the exact comparison of the
represented rationals for positive denominators (`simValue_lt_iff_toRat`). -/
structure SimValue where
  num : Int
  den : Int
deriving DecidableEq

/-- Comparison of two similarity values by cross-multiplication. -/
def SimValue.lt (a b : SimValue) : Prop :=
  a.num * b.den < b.num * a.den

instance (a b : SimValue) : Decidable (a.lt b) :=
  inferInstanceAs (Decidable (a.num * b.den < b.num * a.den))

/-- The rational represented by a similarity value. -/
def SimValue.toRat (a : SimValue) : ℚ :=
  (a.num : ℚ) / (a.den : ℚ)

theorem simValue_lt_iff_toRat (a b : SimValue) (ha : 0 < a.den) (hb : 0 < b.den) :
    a.lt b ↔ a.toRat < b.toRat := by
  unfold SimValue.lt SimValue.toRat
  rw [div_lt_div_iff₀ (by exact_mod_cast ha) (by exact_mod_cast hb)]
  constructor
  · intro h; exact_mod_cast h
  · intro h; exact_mod_cast h

/-- Translated from the source (lines 847-861): the characters counted into
a fragment's histogram; every character of every line of the range followed
by one LF per line (the last line of the fragment included). -/
def fragmentChars (range : LineRange) (lines : List String) : List Char :=
  ((List.range' (range.startLineNumber - 1).toNat
      ((range.endLineNumberExclusive - 1).toNat - (range.startLineNumber - 1).toNat)).map
    (fun i => (getLineD lines i).data ++ ['\n'])).flatten

/-- Translated from the source (lines 839-862).  The process-wide
char-to-key table of the source assigns distinct indices to distinct
characters, so indexing the histogram array by key is equivalent to counting
per character. -/
structure LineRangeFragment where
  range : LineRange
  chars : List Char
  source : DetailedLineRangeMapping
deriving DecidableEq

/-- Constructor of `LineRangeFragment` (source lines 842-862). -/
def mkFragment (range : LineRange) (lines : List String)
    (source : DetailedLineRangeMapping) : LineRangeFragment :=
  ⟨range, fragmentChars range lines, source⟩

/-- Total character count of a fragment (source `totalCount`). -/
def LineRangeFragment.totalCount (f : LineRangeFragment) : Nat :=
  f.chars.length

/-- Histogram entry of a fragment for one character. -/
def LineRangeFragment.histogram (f : LineRangeFragment) (c : Char) : Nat :=
  f.chars.count c

/-- Translated from the source (lines 864-870): the summed absolute
histogram differences. -/
def sumDifferences (f1 f2 : LineRangeFragment) : Nat :=
  ((f1.chars ++ f2.chars).dedup).foldl
    (fun acc c => acc + ((f1.histogram c : Int) - (f2.histogram c : Int)).natAbs) 0

/-- Translated from the source (lines 864-870):
`1 − sumDifferences / (totalCount1 + totalCount2)`, as the unreduced
rational `(t − s) / t`. -/
def LineRangeFragment.computeSimilarity (f1 f2 : LineRangeFragment) : SimValue :=
  ⟨(f1.totalCount : Int) + (f2.totalCount : Int) - (sumDifferences f1 f2 : Int),
   (f1.totalCount : Int) + (f2.totalCount : Int)⟩

/-! ## Simple deletion-to-insertion moves (source lines 253-294) -/

/-- Result of the simple-moves pass. -/
structure SimpleMovesResult where
  moves : List LineRangeMapping
  excludedChanges : List DetailedLineRangeMapping
deriving DecidableEq

/-- State threaded through the greedy pairing loop. -/
structure SimpleMovesState where
  moves : List LineRangeMapping
  excludedChanges : List DetailedLineRangeMapping
  insertions : List LineRangeFragment
  stopped : Bool
deriving DecidableEq

/-- Translated from the source (lines 270-279): the remaining insertion with
the highest similarity (the first one wins ties, as the source compares
strictly), together with that similarity (`−1` when none). -/
def bestInsertion (deletion : LineRangeFragment)
    (insertions : List LineRangeFragment) : Option LineRangeFragment × SimValue :=
  insertions.foldl
    (fun acc ins =>
      if acc.2.lt (deletion.computeSimilarity ins) then
        (some ins, deletion.computeSimilarity ins)
      else acc)
    (none, ⟨-1, 1⟩)

/-- Translated from the source (lines 270-291): one iteration of the greedy
pairing loop; `⟨9, 10⟩` is the source's `0.90` threshold. -/
def simpleMovesStep (timeout : ITimeout) (st : SimpleMovesState)
    (deletion : LineRangeFragment) : SimpleMovesState :=
  if st.stopped then st
  else
    let b := bestInsertion deletion st.insertions
    let st1 : SimpleMovesState :=
      match b.1 with
      | some best =>
        if SimValue.lt ⟨9, 10⟩ b.2 then
          ⟨st.moves ++ [⟨deletion.range, best.range⟩],
           st.excludedChanges ++ [deletion.source, best.source],
           st.insertions.erase best, st.stopped⟩
        else st
      | none => st
    if timeout.valid then st1 else { st1 with stopped := true }

/-- Translated from the source (lines 253-294). -/
def computeMovesFromSimpleDeletionsToSimpleInsertions
    (changes : List DetailedLineRangeMapping)
    (originalLines modifiedLines : List String) (timeout : ITimeout) :
    SimpleMovesResult :=
  let deletions := (changes.filter
      (fun c => decide c.modified.isEmpty && decide ((3 : Int) ≤ c.original.length))).map
    (fun d => mkFragment d.original originalLines d)
  let insertions := (changes.filter
      (fun c => decide c.original.isEmpty && decide ((3 : Int) ≤ c.modified.length))).map
    (fun d => mkFragment d.modified modifiedLines d)
  let final := deletions.foldl (simpleMovesStep timeout) ⟨[], [], insertions, false⟩
  ⟨final.moves, final.excludedChanges⟩

/-! ## Unchanged trigram moves (source lines 296-384) -/

/-- Integer interval `[a, b)` as a list. -/
def intRange (a b : Int) : List Int :=
  (List.range' 0 (b - a).toNat).map (fun k => a + (k : Int))

/-- Translated from the source (lines 308, 325): the trigram key at 1-based
line `i`; the source's string key `h[i-1]:h[i]:h[i+1]` is modelled as the
triple itself. -/
def trigramKey (hashed : List Nat) (i : Int) : Nat × Nat × Nat :=
  (hashed.getD (i - 1).toNat 0, hashed.getD (i + 1 - 1).toNat 0,
    hashed.getD (i + 2 - 1).toNat 0)

/-- Translated from the source (lines 304-311): the multi-map from original
trigram keys to their line ranges, as an insertion-ordered association
list. -/
def buildOriginal3LineHashes (changes : List DetailedLineRangeMapping)
    (hashedOriginalLines : List Nat) : List ((Nat × Nat × Nat) × LineRange) :=
  changes.foldl
    (fun acc change =>
      acc ++ (intRange change.original.startLineNumber
          (change.original.endLineNumberExclusive - 2)).map
        (fun i => (trigramKey hashedOriginalLines i, LineRange.mk i (i + 3))))
    []

/-- A move candidate of the trigram sweep. -/
structure PossibleMapping where
  modifiedLineRange : LineRange
  originalLineRange : LineRange
deriving DecidableEq

/-- Fallback candidate, never inspected. -/
def dfltPM : PossibleMapping := ⟨⟨1, 1⟩, ⟨1, 1⟩⟩

/-- Translated from the source (lines 332-333): does the original trigram
`range` together with the current modified window extend the stored
candidate at index `idx`? -/
def extendCond (store : List PossibleMapping) (range curMod : LineRange)
    (idx : Nat) : Bool :=
  decide ((store.getD idx dfltPM).originalLineRange.endLineNumberExclusive + 1
      = range.endLineNumberExclusive)
    && decide ((store.getD idx dfltPM).modifiedLineRange.endLineNumberExclusive + 1
      = curMod.endLineNumberExclusive)

/-- Translated from the source (lines 329-347): handle one original trigram
occurrence.  The source mutates shared candidate objects in place; the store
is the `possibleMappings` list in creation order and candidates are
identified by index, as the spec's design notes direct (section 9). -/
def processKeyEntry (curMod : LineRange) (lastMappings : List Nat)
    (acc : List PossibleMapping × List Nat) (range : LineRange) :
    List PossibleMapping × List Nat :=
  match lastMappings.find? (extendCond acc.1 range curMod) with
  | some idx =>
    ((acc.1.set idx
        ⟨⟨(acc.1.getD idx dfltPM).modifiedLineRange.startLineNumber,
          curMod.endLineNumberExclusive⟩,
         ⟨(acc.1.getD idx dfltPM).originalLineRange.startLineNumber,
          range.endLineNumberExclusive⟩⟩),
     acc.2 ++ [idx])
  | none =>
    (acc.1 ++ [⟨curMod, range⟩], acc.2 ++ [acc.1.length])

/-- Translated from the source (lines 322-349): the trigram sweep over one
change's modified range. -/
def processChange (original3 : List ((Nat × Nat × Nat) × LineRange))
    (hashedModifiedLines : List Nat) (store : List PossibleMapping)
    (change : DetailedLineRangeMapping) : List PossibleMapping :=
  ((intRange change.modified.startLineNumber
      (change.modified.endLineNumberExclusive - 2)).foldl
    (fun (acc : List PossibleMapping × List Nat) i =>
      (original3.filter
          (fun e => decide (e.1 = trigramKey hashedModifiedLines i))).foldl
        (fun acc2 e => processKeyEntry ⟨i, i + 3⟩ acc.2 acc2 e.2)
        (acc.1, ([] : List Nat)))
    (store, ([] : List Nat))).1

/-- Translated from the source (lines 361-381): consume one candidate,
taking the still-free intersection diagonal-wise and emitting every piece of
at least 3 lines.  The accumulator is `(modifiedSet, originalSet, moves)`. -/
def unchangedFinalStep (acc : LineRangeSet × LineRangeSet × List LineRangeMapping)
    (mapping : PossibleMapping) :
    LineRangeSet × LineRangeSet × List LineRangeMapping :=
  ((acc.1.subtractFrom mapping.modifiedLineRange).getIntersection
      ((acc.2.1.subtractFrom mapping.originalLineRange).getWithDelta
        (mapping.modifiedLineRange.startLineNumber
          - mapping.originalLineRange.startLineNumber))).ranges.foldl
    (fun acc2 s =>
      if s.length < 3 then acc2
      else
        (acc2.1.addRange s,
         acc2.2.1.addRange (s.delta (-(mapping.modifiedLineRange.startLineNumber
            - mapping.originalLineRange.startLineNumber))),
         acc2.2.2 ++ [⟨s.delta (-(mapping.modifiedLineRange.startLineNumber
            - mapping.originalLineRange.startLineNumber)), s⟩]))
    acc

/-- Translated from the source (lines 296-384). -/
def computeUnchangedMoves (changes : List DetailedLineRangeMapping)
    (hashedOriginalLines hashedModifiedLines : List Nat)
    (timeout : ITimeout) : List LineRangeMapping :=
  if timeout.valid = false then []
  else
    ((sortStable
        (fun a b => decide (b.modifiedLineRange.length ≤ a.modifiedLineRange.length))
        ((sortStable
            (fun a b => decide (a.modified.startLineNumber ≤ b.modified.startLineNumber))
            changes).foldl
          (processChange (buildOriginal3LineHashes changes hashedOriginalLines)
            hashedModifiedLines)
          [])).foldl
      unchangedFinalStep (⟨[]⟩, ⟨[]⟩, [])).2.2

/-! ## Joining and filtering moves (source lines 181-251) -/

/-- Translated from the source (line 221): the trimmed original text of a
move candidate (trimmed lines joined with LF). -/
def trimmedOrigText (m : LineRangeMapping) (originalLines : List String) : List Char :=
  joinNL ((m.original.toOffsetRange.sliceList originalLines).map (fun l => trimL l.data))

/-- Translated from the source (lines 208-227): one iteration of the join
loop over the sorted move candidates (the accumulator is kept reversed, its
head being the current last joined move). -/
def joinStep (originalLines : List String) (accRev : List LineRangeMapping)
    (current : LineRangeMapping) : List LineRangeMapping :=
  match accRev with
  | [] => [current]
  | last :: rest =>
    if 0 ≤ current.original.startLineNumber - last.original.endLineNumberExclusive
        ∧ 0 ≤ current.modified.startLineNumber - last.modified.endLineNumberExclusive
        ∧ (current.original.startLineNumber - last.original.endLineNumberExclusive)
            + (current.modified.startLineNumber - last.modified.endLineNumberExclusive)
          ≤ 2 then
      last.join current :: rest
    else if (trimmedOrigText current originalLines).length ≤ 10 then accRev
    else current :: accRev

/-- Translated from the source (lines 204-227): `joinedMoves` starts with
the first candidate (never length-checked) and folds the rest through
`joinStep`. -/
def joinMoves (moves : List LineRangeMapping) (originalLines : List String) :
    List LineRangeMapping :=
  match moves with
  | [] => []
  | m :: ms => (ms.foldl (joinStep originalLines) [m]).reverse

/-- Modelled from the spec: `MonotonousArray.findLastMonotonous` on the
ordered changes list, which equals the plain last element satisfying the
monotone predicate. -/
def findLastSat (changes : List DetailedLineRangeMapping)
    (p : DetailedLineRangeMapping → Bool) : Option DetailedLineRangeMapping :=
  changes.reverse.find? p

/-- Translated from the source (lines 232-236): the ends of the last change
before the move's original range, `(1, 1)` when there is none. -/
def prevEnds (changes : List DetailedLineRangeMapping) (m : LineRangeMapping) :
    Int × Int :=
  match findLastSat changes
      (fun c => decide (c.original.endLineNumberExclusive
        ≤ m.original.startLineNumber)) with
  | some c => (c.original.endLineNumberExclusive, c.modified.endLineNumberExclusive)
  | none => (1, 1)

/-- Translated from the source (lines 230-240): keep a joined move only when
its distances to the previous change differ between the two sides. -/
def nonMoveFilter (changes : List DetailedLineRangeMapping)
    (m : LineRangeMapping) : Bool :=
  decide (m.modified.startLineNumber - (prevEnds changes m).2
    ≠ m.original.startLineNumber - (prevEnds changes m).1)

/-- Translated from the source (lines 181-251).  The per-move refinement
(source lines 242-249) runs the character diff kernels, which are external
collaborators; they enter as the `refineFn` parameter, and the resulting
mappings go through the real `lineRangeMappingFromRangeMappings`. -/
def computeMoves (refineFn : SequenceDiff → List RangeMapping)
    (changes : List DetailedLineRangeMapping)
    (originalLines modifiedLines : List String)
    (hashedOriginalLines hashedModifiedLines : List Nat)
    (timeout : ITimeout) : List MovedText :=
  if timeout.valid = false then []
  else
    ((joinMoves
        (sortStable
          (fun a b => decide (a.original.startLineNumber ≤ b.original.startLineNumber))
          ((computeMovesFromSimpleDeletionsToSimpleInsertions changes originalLines
              modifiedLines timeout).moves
            ++ computeUnchangedMoves
              (changes.filter (fun c =>
                ! decide (c ∈ (computeMovesFromSimpleDeletionsToSimpleInsertions changes
                  originalLines modifiedLines timeout).excludedChanges)))
              hashedOriginalLines hashedModifiedLines timeout))
        originalLines).filter
      (nonMoveFilter changes)).map
    (fun m =>
      ⟨m, lineRangeMappingFromRangeMappings
        (refineFn ⟨m.original.toOffsetRange, m.modified.toOffsetRange⟩)
        originalLines modifiedLines⟩)

theorem lineRange_delta_length (r : LineRange) (k : Int) :
    (r.delta k).length = r.length := by
  have h : (r.delta k).length
      = r.endLineNumberExclusive + k - (r.startLineNumber + k) := rfl
  rw [h]
  unfold LineRange.length
  ring

/-- C2 (counterexample): `computeMoves` can return a `MovedText` with
`original.length ≠ modified.length`, and no discard of unequal-length
candidates exists between joining and the return.  The changes below are the
diff of `["abc","def","ghi","z"]` against `["z","abc","def","ghi",""]`: a
pure deletion of 3 lines paired by histogram similarity `24/25 > 0.9` with a
pure insertion of 4 lines.  (The per-move refinement kernel is external; the
returned line ranges do not depend on it, here it is instantiated with the
empty refinement.) -/
theorem computeMoves_unequal_lengths_counterexample :
    (computeMoves (fun _ => []) [⟨⟨1, 4⟩, ⟨1, 1⟩, []⟩, ⟨⟨5, 5⟩, ⟨2, 6⟩, []⟩]
      ["abc", "def", "ghi", "z"] ["z", "abc", "def", "ghi", ""]
      [0, 1, 2, 3] [3, 0, 1, 2, 4] ⟨true⟩).map
      (fun mt => (mt.original.length, mt.modified.length))
    = [((3 : Int), (4 : Int))] ∧ (3 : Int) ≠ 4 := by decide

/-- C2 (amended): every move emitted by the unchanged-trigram stage
(`computeUnchangedMoves`) has `original.length = modified.length` — each
emitted mapping pairs an intersection piece with its own diagonal
translation. -/
theorem computeUnchangedMoves_shape (changes : List DetailedLineRangeMapping)
    (hashedOriginalLines hashedModifiedLines : List Nat) (timeout : ITimeout) :
    ∀ mv ∈ computeUnchangedMoves changes hashedOriginalLines hashedModifiedLines timeout,
      mv.original.length = mv.modified.length := by
  unfold computeUnchangedMoves
  by_cases ht : timeout.valid = false
  · rw [if_pos ht]
    simp
  · rw [if_neg ht]
    have hstep : ∀ (acc : LineRangeSet × LineRangeSet × List LineRangeMapping)
        (mapping : PossibleMapping),
        ∀ mv ∈ (unchangedFinalStep acc mapping).2.2,
          mv ∈ acc.2.2 ∨ mv.original.length = mv.modified.length := by
      intro acc mapping
      unfold unchangedFinalStep
      generalize ((acc.1.subtractFrom mapping.modifiedLineRange).getIntersection
        ((acc.2.1.subtractFrom mapping.originalLineRange).getWithDelta
          (mapping.modifiedLineRange.startLineNumber
            - mapping.originalLineRange.startLineNumber))).ranges = rs
      induction rs generalizing acc with
      | nil => intro mv hmv; exact Or.inl hmv
      | cons s rest ih =>
        intro mv hmv
        rw [List.foldl_cons] at hmv
        by_cases hlen : s.length < 3
        · rw [if_pos hlen] at hmv
          exact ih acc mv hmv
        · rw [if_neg hlen] at hmv
          rcases ih _ mv hmv with h | h
          · simp only [] at h
            rcases List.mem_append.mp h with h1 | h1
            · exact Or.inl h1
            · rcases List.mem_singleton.mp h1 with rfl
              refine Or.inr ?_
              show ((s.delta _).length = s.length)
              exact lineRange_delta_length s _
          · exact Or.inr h
    generalize (sortStable
      (fun a b => decide (b.modifiedLineRange.length ≤ a.modifiedLineRange.length))
      ((sortStable
          (fun a b => decide (a.modified.startLineNumber ≤ b.modified.startLineNumber))
          changes).foldl
        (processChange (buildOriginal3LineHashes changes hashedOriginalLines)
          hashedModifiedLines)
        [])) = candidates
    have hfold : ∀ (cs : List PossibleMapping)
        (acc : LineRangeSet × LineRangeSet × List LineRangeMapping),
        (∀ mv ∈ acc.2.2, mv.original.length = mv.modified.length) →
        ∀ mv ∈ (cs.foldl unchangedFinalStep acc).2.2,
          mv.original.length = mv.modified.length := by
      intro cs
      induction cs with
      | nil => intro acc hacc mv hmv; exact hacc mv hmv
      | cons c cs ih =>
        intro acc hacc mv hmv
        rw [List.foldl_cons] at hmv
        refine ih _ ?_ mv hmv
        intro mv2 hmv2
        rcases hstep acc c mv2 hmv2 with h | h
        · exact hacc mv2 h
        · exact h
    exact hfold candidates (⟨[]⟩, ⟨[]⟩, []) (by simp)

/-- Witness for `computeUnchangedMoves_shape` at a concrete trigram move. -/
theorem computeUnchangedMoves_shape_witness :
    (⟨⟨1, 4⟩, ⟨1, 4⟩⟩ : LineRangeMapping)
      ∈ computeUnchangedMoves [⟨⟨1, 4⟩, ⟨1, 4⟩, []⟩] [1, 2, 3] [1, 2, 3] ⟨true⟩
    ∧ (⟨⟨1, 4⟩, ⟨1, 4⟩⟩ : LineRangeMapping).original.length
      = (⟨⟨1, 4⟩, ⟨1, 4⟩⟩ : LineRangeMapping).modified.length :=
  ⟨by decide,
   computeUnchangedMoves_shape [⟨⟨1, 4⟩, ⟨1, 4⟩, []⟩] [1, 2, 3] [1, 2, 3] ⟨true⟩
     ⟨⟨1, 4⟩, ⟨1, 4⟩⟩ (by decide)⟩

/-- C5 (counterexample): the first move candidate in original-start order is
never length-checked by the join loop (source line 207 seeds `joinedMoves`
with `moves[0]` before any check), so `computeMoves` returns a move whose
trimmed original text `"a\nb\nc"` has only 5 characters. -/
theorem computeMoves_short_first_move_counterexample :
    (computeMoves (fun _ => []) [⟨⟨1, 4⟩, ⟨1, 1⟩, []⟩, ⟨⟨5, 5⟩, ⟨2, 5⟩, []⟩]
      ["a", "b", "c", "z"] ["z", "a", "b", "c"] [0, 1, 2, 3] [3, 0, 1, 2] ⟨true⟩).map
      (fun mt => (trimmedOrigText mt.lineRangeMapping ["a", "b", "c", "z"]).length)
    = [5] ∧ (5 : Nat) < 11 := by decide

theorem joinNL_length (bs : List (List Char)) :
    (joinNL bs).length = (bs.map List.length).sum + (bs.length - 1) := by
  induction bs with
  | nil => rfl
  | cons b bs ih =>
    cases bs with
    | nil => simp [joinNL, List.intercalate]
    | cons b2 bs2 =>
      have h : joinNL (b :: b2 :: bs2) = b ++ '\n' :: joinNL (b2 :: bs2) := by
        unfold joinNL List.intercalate
        rw [List.intersperse_cons₂]
        simp
      rw [h]
      simp only [List.length_append, List.length_cons, List.map_cons, List.sum_cons]
      rw [ih]
      simp only [List.map_cons, List.sum_cons, List.length_cons]
      omega

/-- Length of the trimmed joined text of the line interval `[s, e)` (0-based
over the line array). -/
def sliceTrimLen (lines : List String) (s e : Nat) : Nat :=
  (joinNL (((lines.drop s).take (e - s)).map (fun l => trimL l.data))).length

theorem sliceTrimLen_mono_e (lines : List String) (s e : Nat) :
    sliceTrimLen lines s e ≤ sliceTrimLen lines s (e + 1) := by
  unfold sliceTrimLen
  rcases Nat.lt_or_ge e s with h | h
  · have h1 : e - s = 0 := by omega
    have h2 : e + 1 - s = 0 := by omega
    rw [h1, h2]
  · have h1 : e + 1 - s = (e - s) + 1 := by omega
    rw [h1, List.take_succ, List.map_append, joinNL_length, joinNL_length]
    simp only [List.map_append, List.sum_append, List.length_append]
    omega

theorem sliceTrimLen_mono_e' (lines : List String) (s : Nat) :
    ∀ e e', e ≤ e' → sliceTrimLen lines s e ≤ sliceTrimLen lines s e' := by
  intro e e' h
  induction e', h using Nat.le_induction with
  | base => exact le_refl _
  | succ e' _ ih => exact le_trans ih (sliceTrimLen_mono_e lines s e')

theorem joinNL_length_cons (b : List Char) (bs : List (List Char)) :
    (joinNL bs).length ≤ (joinNL (b :: bs)).length := by
  rw [joinNL_length, joinNL_length]
  simp only [List.map_cons, List.sum_cons, List.length_cons]
  omega

theorem sliceTrimLen_mono_s (lines : List String) (s e : Nat) (hs : 1 ≤ s) :
    sliceTrimLen lines s e ≤ sliceTrimLen lines (s - 1) e := by
  unfold sliceTrimLen
  rcases Nat.lt_or_ge (s - 1) lines.length with h | h
  · rw [List.drop_eq_getElem_cons h]
    have hss : s - 1 + 1 = s := by omega
    rw [hss]
    rcases Nat.lt_or_ge (s - 1) e with he | he
    · have h1 : e - (s - 1) = (e - s) + 1 := by omega
      rw [h1, List.take_succ_cons, List.map_cons]
      exact joinNL_length_cons _ _
    · have h1 : e - (s - 1) = 0 := by omega
      have h2 : e - s = 0 := by omega
      rw [h1, h2]
      simp
  · have h1 : lines.drop (s - 1) = [] := List.drop_eq_nil_of_le (by omega)
    have h2 : lines.drop s = [] := List.drop_eq_nil_of_le (by omega)
    rw [h1, h2]
    simp

theorem sliceTrimLen_mono_s' (lines : List String) (e : Nat) :
    ∀ s s', s' ≤ s → sliceTrimLen lines s e ≤ sliceTrimLen lines s' e := by
  intro s
  induction s with
  | zero =>
    intro s' h
    have : s' = 0 := by omega
    subst this
    exact le_refl _
  | succ s ih =>
    intro s' h
    rcases Nat.eq_or_lt_of_le h with h1 | h1
    · subst h1; exact le_refl _
    · have h2 : s' ≤ s := by omega
      have h3 := sliceTrimLen_mono_s lines (s + 1) e (by omega)
      simp only [Nat.add_sub_cancel] at h3
      exact le_trans h3 (ih s' h2)

theorem trimmedOrigText_mono (lines : List String) (m m' : LineRangeMapping)
    (hs : m'.original.startLineNumber ≤ m.original.startLineNumber)
    (he : m.original.endLineNumberExclusive ≤ m'.original.endLineNumberExclusive) :
    (trimmedOrigText m lines).length ≤ (trimmedOrigText m' lines).length := by
  have hcast : ∀ mm : LineRangeMapping, (trimmedOrigText mm lines).length
      = sliceTrimLen lines (mm.original.startLineNumber - 1).toNat
          (mm.original.endLineNumberExclusive - 1).toNat := by
    intro mm
    unfold trimmedOrigText sliceTrimLen OffsetRange.sliceList LineRange.toOffsetRange
    rfl
  rw [hcast, hcast]
  calc sliceTrimLen lines (m.original.startLineNumber - 1).toNat
        (m.original.endLineNumberExclusive - 1).toNat
      ≤ sliceTrimLen lines (m.original.startLineNumber - 1).toNat
        (m'.original.endLineNumberExclusive - 1).toNat :=
        sliceTrimLen_mono_e' lines _ _ _ (by omega)
    _ ≤ sliceTrimLen lines (m'.original.startLineNumber - 1).toNat
        (m'.original.endLineNumberExclusive - 1).toNat :=
        sliceTrimLen_mono_s' lines _ _ _ (by omega)

theorem reverse_drop_one (l : List α) : l.reverse.drop 1 = l.dropLast.reverse := by
  induction l with
  | nil => rfl
  | cons x xs ih =>
    cases xs with
    | nil => rfl
    | cons y ys =>
      rw [List.reverse_cons, List.drop_append_of_le_length (by simp), ih,
        List.dropLast_cons₂, List.reverse_cons]

/-- C5 (amended): during move joining, every returned joined move other than
the first has more than 10 characters of trimmed original text: a candidate
after the first is dropped exactly when it is not joined into its
predecessor and its trimmed text has at most 10 characters, pushed
candidates have more, and joining only grows a move's range and hence its
trimmed text.  The first candidate is exempt from the check. -/
theorem joinMoves_tail_long (moves : List LineRangeMapping)
    (originalLines : List String) :
    ∀ mv ∈ (joinMoves moves originalLines).drop 1,
      10 < (trimmedOrigText mv originalLines).length := by
  cases moves with
  | nil => intro mv hmv; simp [joinMoves] at hmv
  | cons m ms =>
    have hfold : ∀ (l : List LineRangeMapping) (accRev : List LineRangeMapping),
        (∀ e ∈ accRev.dropLast, 10 < (trimmedOrigText e originalLines).length) →
        ∀ e ∈ (l.foldl (joinStep originalLines) accRev).dropLast,
          10 < (trimmedOrigText e originalLines).length := by
      intro l
      induction l with
      | nil => intro accRev hacc e he; exact hacc e he
      | cons c cs ih =>
        intro accRev hacc e he
        rw [List.foldl_cons] at he
        refine ih _ ?_ e he
        intro e2 he2
        cases accRev with
        | nil =>
          simp only [joinStep] at he2
          simp at he2
        | cons last rest =>
          simp only [joinStep] at he2
          by_cases hj : 0 ≤ c.original.startLineNumber
                - last.original.endLineNumberExclusive
              ∧ 0 ≤ c.modified.startLineNumber - last.modified.endLineNumberExclusive
              ∧ (c.original.startLineNumber - last.original.endLineNumberExclusive)
                  + (c.modified.startLineNumber - last.modified.endLineNumberExclusive)
                ≤ 2
          · rw [if_pos hj] at he2
            cases rest with
            | nil => simp at he2
            | cons r rs =>
              rw [List.dropLast_cons₂] at he2
              rcases List.mem_cons.mp he2 with rfl | h2
              · have hlast := hacc last
                  (by rw [List.dropLast_cons₂]; exact List.mem_cons_self _ _)
                refine lt_of_lt_of_le hlast ?_
                refine trimmedOrigText_mono originalLines last (last.join c) ?_ ?_
                · exact min_le_left _ _
                · exact le_max_left _ _
              · exact hacc e2
                  (by rw [List.dropLast_cons₂]; exact List.mem_cons_of_mem _ h2)
          · rw [if_neg hj] at he2
            by_cases hshort : (trimmedOrigText c originalLines).length ≤ 10
            · rw [if_pos hshort] at he2
              exact hacc e2 he2
            · rw [if_neg hshort] at he2
              rw [List.dropLast_cons₂] at he2
              rcases List.mem_cons.mp he2 with rfl | h2
              · omega
              · exact hacc e2 h2
    intro mv hmv
    simp only [joinMoves] at hmv
    rw [reverse_drop_one, List.mem_reverse] at hmv
    exact hfold ms [m] (by simp) mv hmv

/-- Witness for `joinMoves_tail_long`: a long far-away second candidate
survives the join loop behind a short first one. -/
theorem joinMoves_tail_long_witness :
    10 < (trimmedOrigText ⟨⟨5, 6⟩, ⟨9, 10⟩⟩ ["a", "", "", "", "abcdefghijkl"]).length :=
  joinMoves_tail_long [⟨⟨1, 2⟩, ⟨1, 2⟩⟩, ⟨⟨5, 6⟩, ⟨9, 10⟩⟩]
    ["a", "", "", "", "abcdefghijkl"] ⟨⟨5, 6⟩, ⟨9, 10⟩⟩ (by decide)

theorem foldl_add_g (g : Char → Nat) :
    ∀ (l : List Char) (n : Nat),
    l.foldl (fun acc c => acc + g c) n = n + (l.map g).sum := by
  intro l
  induction l with
  | nil => intro n; simp
  | cons x xs ih =>
    intro n
    rw [List.foldl_cons, ih, List.map_cons, List.sum_cons]
    omega

theorem simDen_pos (deletion f2 : LineRangeFragment) (htot : 0 < deletion.totalCount) :
    0 < (deletion.computeSimilarity f2).den := by
  show (0 : Int) < (deletion.totalCount : Int) + (f2.totalCount : Int)
  omega

theorem sumDifferences_eq_sum (f1 f2 : LineRangeFragment) :
    ((sumDifferences f1 f2 : Nat) : ℚ)
      = ∑ c ∈ (f1.chars ++ f2.chars).toFinset,
          |(f1.histogram c : ℚ) - (f2.histogram c : ℚ)| := by
  unfold sumDifferences
  rw [foldl_add_g, Nat.zero_add, Nat.cast_list_sum, List.map_map]
  have hfun : (Nat.cast ∘ fun c => ((f1.histogram c : Int) - (f2.histogram c : Int)).natAbs)
      = fun c : Char => |(f1.histogram c : ℚ) - (f2.histogram c : ℚ)| := by
    funext c
    show (((((f1.histogram c : Int) - (f2.histogram c : Int)).natAbs : Nat)) : ℚ) = _
    rw [Int.cast_natAbs]
    push_cast
    ring_nf
  rw [hfun]
  have hdt : ((f1.chars ++ f2.chars).dedup).toFinset = (f1.chars ++ f2.chars).toFinset := by
    ext c
    simp
  rw [← hdt, List.sum_toFinset _ (List.nodup_dedup _)]

/-- C6: the similarity of two fragments equals
`1 − (Σ_c |h1[c] − h2[c]|) / (total1 + total2)`; each deletion is paired
with the remaining insertion of highest similarity (the acceptance adds the
move exactly when that similarity exceeds `0.90`). -/
theorem simpleDeletionInsertion_greedy_spec
    (deletion best : LineRangeFragment) (insertions : List LineRangeFragment)
    (hs : SimValue) (htot : 0 < deletion.totalCount)
    (hb : bestInsertion deletion insertions = (some best, hs)) :
    best ∈ insertions
    ∧ hs = deletion.computeSimilarity best
    ∧ (∀ ins ∈ insertions, (deletion.computeSimilarity ins).toRat
        ≤ (deletion.computeSimilarity best).toRat)
    ∧ (∀ (timeout : ITimeout) (st : SimpleMovesState),
        st.stopped = false → st.insertions = insertions →
        (simpleMovesStep timeout st deletion).moves
          = st.moves ++ (if (9 : ℚ) / 10 < (deletion.computeSimilarity best).toRat
              then [⟨deletion.range, best.range⟩] else []))
    ∧ (∀ f2 : LineRangeFragment,
        (deletion.computeSimilarity f2).toRat
          = 1 - (∑ c ∈ (deletion.chars ++ f2.chars).toFinset,
              |(deletion.histogram c : ℚ) - (f2.histogram c : ℚ)|)
            / ((deletion.totalCount : ℚ) + (f2.totalCount : ℚ))) := by
  have hdens : ∀ f2, 0 < (deletion.computeSimilarity f2).den :=
    fun f2 => simDen_pos deletion f2 htot
  have hinv : ∀ (l : List LineRangeFragment) (acc : Option LineRangeFragment × SimValue),
      0 < acc.2.den →
      0 < (l.foldl (fun acc2 ins =>
          if acc2.2.lt (deletion.computeSimilarity ins) then
            (some ins, deletion.computeSimilarity ins)
          else acc2) acc).2.den
      ∧ (∀ i ∈ l, (deletion.computeSimilarity i).toRat
          ≤ (l.foldl (fun acc2 ins =>
              if acc2.2.lt (deletion.computeSimilarity ins) then
                (some ins, deletion.computeSimilarity ins)
              else acc2) acc).2.toRat)
      ∧ ((l.foldl (fun acc2 ins =>
            if acc2.2.lt (deletion.computeSimilarity ins) then
              (some ins, deletion.computeSimilarity ins)
            else acc2) acc) = acc
          ∨ ∃ x ∈ l, (l.foldl (fun acc2 ins =>
              if acc2.2.lt (deletion.computeSimilarity ins) then
                (some ins, deletion.computeSimilarity ins)
              else acc2) acc).1 = some x
            ∧ (l.foldl (fun acc2 ins =>
                if acc2.2.lt (deletion.computeSimilarity ins) then
                  (some ins, deletion.computeSimilarity ins)
                else acc2) acc).2 = deletion.computeSimilarity x)
      ∧ acc.2.toRat ≤ (l.foldl (fun acc2 ins =>
          if acc2.2.lt (deletion.computeSimilarity ins) then
            (some ins, deletion.computeSimilarity ins)
          else acc2) acc).2.toRat := by
    intro l
    induction l with
    | nil =>
      intro acc hden
      exact ⟨hden, by simp, Or.inl rfl, le_refl _⟩
    | cons x xs ih =>
      intro acc hden
      rw [List.foldl_cons]
      by_cases hcond : acc.2.lt (deletion.computeSimilarity x)
      · rw [if_pos hcond]
        obtain ⟨h1, h2, h3, h4⟩ := ih (some x, deletion.computeSimilarity x) (hdens x)
        have hlt : acc.2.toRat < (deletion.computeSimilarity x).toRat :=
          (simValue_lt_iff_toRat _ _ hden (hdens x)).mp hcond
        refine ⟨h1, ?_, ?_, ?_⟩
        · intro i hi
          rcases List.mem_cons.mp hi with rfl | hi
          · exact h4
          · exact h2 i hi
        · rcases h3 with h3 | ⟨y, hy, hy1, hy2⟩
          · exact Or.inr ⟨x, List.mem_cons_self _ _, by rw [h3], by rw [h3]⟩
          · exact Or.inr ⟨y, List.mem_cons_of_mem _ hy, hy1, hy2⟩
        · exact le_trans (le_of_lt hlt) h4
      · rw [if_neg hcond]
        obtain ⟨h1, h2, h3, h4⟩ := ih acc hden
        have hle : (deletion.computeSimilarity x).toRat ≤ acc.2.toRat := by
          by_contra hcon
          push_neg at hcon
          exact hcond ((simValue_lt_iff_toRat _ _ hden (hdens x)).mpr hcon)
        refine ⟨h1, ?_, ?_, h4⟩
        · intro i hi
          rcases List.mem_cons.mp hi with rfl | hi
          · exact le_trans hle h4
          · exact h2 i hi
        · rcases h3 with h3 | ⟨y, hy, hy1, hy2⟩
          · exact Or.inl h3
          · exact Or.inr ⟨y, List.mem_cons_of_mem _ hy, hy1, hy2⟩
  obtain ⟨hrden, hmax, hcases, hmono⟩ := hinv insertions (none, ⟨-1, 1⟩) (by norm_num)
  rw [show bestInsertion deletion insertions
      = insertions.foldl (fun acc2 ins =>
          if acc2.2.lt (deletion.computeSimilarity ins) then
            (some ins, deletion.computeSimilarity ins)
          else acc2) (none, ⟨-1, 1⟩) from rfl] at hb
  have hbest : best ∈ insertions ∧ hs = deletion.computeSimilarity best := by
    rcases hcases with h | ⟨y, hy, hy1, hy2⟩
    · rw [hb] at h
      exact absurd (congrArg Prod.fst h) (by simp)
    · rw [hb] at hy1 hy2
      simp only [] at hy1 hy2
      rcases Option.some.inj hy1 with rfl
      exact ⟨hy, hy2⟩
  have hformula : ∀ f2 : LineRangeFragment,
      (deletion.computeSimilarity f2).toRat
        = 1 - (∑ c ∈ (deletion.chars ++ f2.chars).toFinset,
            |(deletion.histogram c : ℚ) - (f2.histogram c : ℚ)|)
          / ((deletion.totalCount : ℚ) + (f2.totalCount : ℚ)) := by
    intro f2
    rw [← sumDifferences_eq_sum]
    show (((deletion.totalCount : Int) + (f2.totalCount : Int)
        - (sumDifferences deletion f2 : Int) : Int) : ℚ)
      / (((deletion.totalCount : Int) + (f2.totalCount : Int) : Int) : ℚ) = _
    have ht : ((deletion.totalCount : ℚ) + (f2.totalCount : ℚ)) ≠ 0 := by
      have : (0 : ℚ) < (deletion.totalCount : ℚ) + (f2.totalCount : ℚ) := by
        have h1 : (1 : ℚ) ≤ (deletion.totalCount : ℚ) := by exact_mod_cast htot
        have h2 : (0 : ℚ) ≤ (f2.totalCount : ℚ) := by positivity
        linarith
      linarith
    field_simp
  refine ⟨hbest.1, hbest.2, ?_, ?_, hformula⟩
  · intro ins hins
    have := hmax ins hins
    rw [hb] at this
    simp only [] at this
    rw [hbest.2] at this
    exact this
  · intro timeout st hstop hins
    unfold simpleMovesStep
    rw [hstop]
    simp only [Bool.false_eq_true, if_false]
    rw [hins]
    rw [show bestInsertion deletion insertions
        = (some best, hs) from hb]
    simp only []
    have hbridge : SimValue.lt ⟨9, 10⟩ hs
        ↔ (9 : ℚ) / 10 < (deletion.computeSimilarity best).toRat := by
      rw [hbest.2]
      rw [simValue_lt_iff_toRat ⟨9, 10⟩ _ (by norm_num) (hdens best)]
      have h910 : (⟨9, 10⟩ : SimValue).toRat = (9 : ℚ) / 10 := by
        unfold SimValue.toRat
        norm_num
      rw [h910]
    by_cases hacc : SimValue.lt ⟨9, 10⟩ hs
    · rw [if_pos hacc, if_pos (hbridge.mp hacc)]
      by_cases ht : timeout.valid
      · rw [if_pos ht]
      · rw [if_neg ht]
    · rw [if_neg hacc, if_neg (fun hcon => hacc (hbridge.mpr hcon))]
      by_cases ht : timeout.valid
      · rw [if_pos ht]
        simp
      · rw [if_neg ht]
        simp

/-- Witness for `simpleDeletionInsertion_greedy_spec`: two identical
one-line fragments pair at similarity `4/4 = 1`. -/
theorem simpleDeletionInsertion_greedy_spec_witness :
    mkFragment ⟨1, 2⟩ ["a"] dfltDLRM ∈ [mkFragment ⟨1, 2⟩ ["a"] dfltDLRM]
    ∧ (⟨4, 4⟩ : SimValue)
      = (mkFragment ⟨1, 2⟩ ["a"] dfltDLRM).computeSimilarity
          (mkFragment ⟨1, 2⟩ ["a"] dfltDLRM) :=
  ⟨(simpleDeletionInsertion_greedy_spec (mkFragment ⟨1, 2⟩ ["a"] dfltDLRM)
      (mkFragment ⟨1, 2⟩ ["a"] dfltDLRM) [mkFragment ⟨1, 2⟩ ["a"] dfltDLRM]
      ⟨4, 4⟩ (by decide) (by decide)).1,
   (simpleDeletionInsertion_greedy_spec (mkFragment ⟨1, 2⟩ ["a"] dfltDLRM)
      (mkFragment ⟨1, 2⟩ ["a"] dfltDLRM) [mkFragment ⟨1, 2⟩ ["a"] dfltDLRM]
      ⟨4, 4⟩ (by decide) (by decide)).2.1⟩

end AdvancedDiff
